import Mathlib

/-!
# Monte Carlo integration: estimators and convergence sweep

Shallow embedding of `src/integral_calculator.cpp` (`monteCarloIntegral`,
`monteCarloMultidimensional`) and of the error sweeps of `src/main.cpp`
(`plotErrors`, `plotMultidimensionalErrors`).

Conventions of the embedding.

* A C++ `double` is an IEEE 754 binary64 value (`Dbl`): NaN, the two infinities,
  or a finite value `(-1)^neg * m * 2^e`.  The arithmetic operations compute the
  exact result on integers and round it to nearest, ties to even, with gradual
  underflow and overflow to infinity (`Dbl.round`).
* A C++ `int` is an integer; the one addition that can leave the 32-bit range
  (`points += maxPoints / 20`) is checked (`addInt`).
* `rand()` reads a stream `rand : Nat → Nat`; the stream position (number of
  calls made so far) is explicit state.  `RAND_MAX` comes from `<cstdlib>` and is
  a parameter.
* Every call of the integrand is logged (`Effects.evals`), so that "the
  integrand was evaluated at these points, in this order" can be stated.
-/

namespace MonteCarlo

/-- An IEEE 754 binary64 value: NaN, an infinity, or the finite value
`(-1)^neg * m * 2^e`.  The results of the operations below are in canonical
form: `m < 2^53`, `-1074 ≤ e ≤ 971`, and `e = -1074` when `m < 2^52`. -/
inductive Dbl
  | nan
  | inf (neg : Bool)
  | fin (neg : Bool) (m : Nat) (e : Int)
  deriving DecidableEq

namespace Dbl

/-- The literal `0.0`. -/
def zero : Dbl := fin false 0 (-1074)

/-- The literal `1.0`, that is `2^52 * 2^-52`. -/
def one : Dbl := fin false 4503599627370496 (-52)

/-- Neither NaN nor an infinity. -/
def isFinite : Dbl → Bool
  | fin _ _ _ => true
  | _ => false

/-- The value is `+0.0` or `-0.0`: it compares equal to `0.0`. -/
def isZero : Dbl → Bool
  | fin _ m _ => decide (m = 0)
  | _ => false

/-- The value is a finite double in canonical form. -/
def isCanonical : Dbl → Bool
  | fin _ m e => decide (m < 9007199254740992 ∧ -1074 ≤ e ∧ e ≤ 971
      ∧ (m < 4503599627370496 → e = -1074))
  | _ => false

/-- Number of binary digits of `m`, by halving; the first argument bounds the
number of halvings. -/
def bitLengthAux : Nat → Nat → Nat
  | 0, _ => 0
  | fuel + 1, m => if m = 0 then 0 else bitLengthAux fuel (m / 2) + 1

/-- Number of binary digits of `m` (0 for 0). -/
def bitLength (m : Nat) : Nat := bitLengthAux m m

/-- A finite value, or the infinity when the exponent is beyond the largest one. -/
def finOrInf (s : Bool) (m : Nat) (e : Int) : Dbl :=
  if 971 < e then inf s else fin s m e

/-- The integer nearest to `m / 2^sh`, ties to even. -/
def roundMant (m sh : Nat) : Nat :=
  if 2 ^ (sh - 1) < m % 2 ^ sh ∨ (m % 2 ^ sh = 2 ^ (sh - 1) ∧ (m / 2 ^ sh) % 2 = 1)
  then m / 2 ^ sh + 1 else m / 2 ^ sh

/-- The double nearest to the exact value `(-1)^s * m * 2^e`, ties to even. -/
def round (s : Bool) (m : Nat) (e : Int) : Dbl :=
  if m = 0 then fin s 0 (-1074)
  else if max (e + (bitLength m : Int) - 53) (-1074) ≤ e then
    finOrInf s (m * 2 ^ (e - max (e + (bitLength m : Int) - 53) (-1074)).toNat)
      (max (e + (bitLength m : Int) - 53) (-1074))
  else if roundMant m (max (e + (bitLength m : Int) - 53) (-1074) - e).toNat
      = 9007199254740992 then
    finOrInf s 4503599627370496 (max (e + (bitLength m : Int) - 53) (-1074) + 1)
  else
    finOrInf s (roundMant m (max (e + (bitLength m : Int) - 53) (-1074) - e).toNat)
      (max (e + (bitLength m : Int) - 53) (-1074))

/-- The integer `(-1)^s * m`. -/
def signed (s : Bool) (m : Nat) : Int := if s then -(m : Int) else (m : Int)

/-- Unary minus. -/
def neg : Dbl → Dbl
  | nan => nan
  | inf s => inf (!s)
  | fin s m e => fin (!s) m e

/-- The function `fabs`. -/
def abs : Dbl → Dbl
  | nan => nan
  | inf _ => inf false
  | fin _ m e => fin false m e

/-- The operator `+` on doubles. -/
def add : Dbl → Dbl → Dbl
  | nan, _ => nan
  | _, nan => nan
  | inf s, inf t => if s = t then inf s else nan
  | inf s, fin _ _ _ => inf s
  | fin _ _ _, inf t => inf t
  | fin s1 m1 e1, fin s2 m2 e2 =>
    if signed s1 (m1 * 2 ^ (e1 - min e1 e2).toNat)
        + signed s2 (m2 * 2 ^ (e2 - min e1 e2).toNat) = 0 then
      fin (s1 && s2) 0 (-1074)
    else
      round (decide (signed s1 (m1 * 2 ^ (e1 - min e1 e2).toNat)
          + signed s2 (m2 * 2 ^ (e2 - min e1 e2).toNat) < 0))
        (signed s1 (m1 * 2 ^ (e1 - min e1 e2).toNat)
          + signed s2 (m2 * 2 ^ (e2 - min e1 e2).toNat)).natAbs (min e1 e2)

/-- The operator `-` on doubles. -/
def sub (x y : Dbl) : Dbl := add x (neg y)

/-- The operator `*` on doubles. -/
def mul : Dbl → Dbl → Dbl
  | nan, _ => nan
  | _, nan => nan
  | inf s, inf t => inf (xor s t)
  | inf s, fin t m _ => if m = 0 then nan else inf (xor s t)
  | fin s m _, inf t => if m = 0 then nan else inf (xor s t)
  | fin s1 m1 e1, fin s2 m2 e2 => round (xor s1 s2) (m1 * m2) (e1 + e2)

/-- The operator `/` on doubles.  The quotient of the mantissas is computed with
64 extra binary digits and a sticky last digit, which is enough to round it
correctly. -/
def div : Dbl → Dbl → Dbl
  | nan, _ => nan
  | _, nan => nan
  | inf _, inf _ => nan
  | inf s, fin t _ _ => inf (xor s t)
  | fin s _ _, inf t => fin (xor s t) 0 (-1074)
  | fin s1 m1 e1, fin s2 m2 e2 =>
    if m2 = 0 then (if m1 = 0 then nan else inf (xor s1 s2))
    else
      round (xor s1 s2)
        (2 * (m1 * 2 ^ (bitLength m2 + 64) / m2)
          + (if m1 * 2 ^ (bitLength m2 + 64) % m2 = 0 then 0 else 1))
        (e1 - e2 - ((bitLength m2 + 64 : Nat) : Int) - 1)

/-- The conversion of an `int` to `double`. -/
def ofInt (n : Int) : Dbl := round (decide (n < 0)) n.natAbs 0

/-- The comparison `x <= y` of doubles (false when either is NaN). -/
def le : Dbl → Dbl → Bool
  | nan, _ => false
  | _, nan => false
  | inf s, inf t => s || !t
  | inf s, fin _ _ _ => s
  | fin _ _ _, inf t => !t
  | fin s1 m1 e1, fin s2 m2 e2 =>
    decide (signed s1 (m1 * 2 ^ (e1 - min e1 e2).toNat)
      ≤ signed s2 (m2 * 2 ^ (e2 - min e1 e2).toNat))

end Dbl

/-- Abnormal ways in which the modelled C++ code stops. -/
inductive Fault
  /-- A `throw std::invalid_argument(...)`. -/
  | invalidArgument
  /-- The `std::vector<double>(dimensions)` constructor called with a negative size. -/
  | lengthError
  /-- An index `limits[d]` beyond the size of `limits` (undefined behaviour). -/
  | outOfBounds
  /-- The call `back()` on an empty `std::vector` (undefined behaviour). -/
  | emptyBack
  /-- Signed overflow of an `int` (undefined behaviour). -/
  | intOverflow
  deriving DecidableEq

/-- The observable side effects of a run: how many `rand()` calls were made since
the process started, and the arguments the integrand was called with, in order. -/
structure Effects (α : Type) where
  pos : Nat
  evals : List α

/-- The expression `a + static_cast<double>(rand()) / RAND_MAX * (b - a)` for the
raw draw `r`. -/
def samplePoint (RAND_MAX : Nat) (a b : Dbl) (r : Nat) : Dbl :=
  Dbl.add a (Dbl.mul (Dbl.div (Dbl.ofInt (r : Int)) (Dbl.ofInt (RAND_MAX : Int))) (Dbl.sub b a))

/-- The loop `for (int i = 0; i < points; ++i) { x = ...; sum += func(x); }` of
`monteCarloIntegral`, with the number of remaining iterations as first argument. -/
def integralLoop (RAND_MAX : Nat) (rand : Nat → Nat) (a b : Dbl) (func : Dbl → Dbl) :
    Nat → Dbl → Effects Dbl → Dbl × Effects Dbl
  | 0, sum, e => (sum, e)
  | n + 1, sum, e =>
    integralLoop RAND_MAX rand a b func n
      (Dbl.add sum (func (samplePoint RAND_MAX a b (rand e.pos))))
      ⟨e.pos + 1, e.evals ++ [samplePoint RAND_MAX a b (rand e.pos)]⟩

/-- The function `monteCarloIntegral(a, b, points, func)`. -/
def monteCarloIntegral (RAND_MAX : Nat) (rand : Nat → Nat) (a b : Dbl) (points : Int)
    (func : Dbl → Dbl) (e : Effects Dbl) : Except Fault Dbl × Effects Dbl :=
  if points ≤ 0 then (.error .invalidArgument, e)
  else
    (.ok (Dbl.div (Dbl.mul (Dbl.sub b a)
        (integralLoop RAND_MAX rand a b func points.toNat Dbl.zero e).1) (Dbl.ofInt points)),
      (integralLoop RAND_MAX rand a b func points.toNat Dbl.zero e).2)

/-- The loop `for (const auto& limit : limits) volume *= (limit.second - limit.first);`
started from `volume = 1.0`. -/
def volumeLoop (limits : List (Dbl × Dbl)) : Dbl :=
  limits.foldl (fun volume limit => Dbl.mul volume (Dbl.sub limit.2 limit.1)) Dbl.one

/-- The inner loop `for (int d = 0; d < dimensions; ++d) randomPoint[d] = ...;` of
`monteCarloMultidimensional`: remaining iterations, current `d`, the vector
`randomPoint`, the stream position. -/
def pointLoop (RAND_MAX : Nat) (rand : Nat → Nat) (limits : List (Dbl × Dbl)) :
    Nat → Nat → List Dbl → Nat → Except Fault (List Dbl) × Nat
  | 0, _, randomPoint, pos => (.ok randomPoint, pos)
  | k + 1, d, randomPoint, pos =>
    match limits[d]? with
    | none => (.error .outOfBounds, pos)
    | some limit =>
      pointLoop RAND_MAX rand limits k (d + 1)
        (randomPoint.set d (samplePoint RAND_MAX limit.1 limit.2 (rand pos))) (pos + 1)

/-- The outer loop `for (int i = 0; i < points; ++i) { ...; sum += func(randomPoint); }`
of `monteCarloMultidimensional`; `randomPoint` is reused from one sample to the next. -/
def multiLoop (RAND_MAX : Nat) (rand : Nat → Nat) (limits : List (Dbl × Dbl)) (dims : Nat)
    (func : List Dbl → Dbl) :
    Nat → Dbl → List Dbl → Effects (List Dbl) → Except Fault Dbl × Effects (List Dbl)
  | 0, sum, _, e => (.ok sum, e)
  | n + 1, sum, randomPoint, e =>
    match pointLoop RAND_MAX rand limits dims 0 randomPoint e.pos with
    | (.error f, pos') => (.error f, ⟨pos', e.evals⟩)
    | (.ok pt, pos') =>
      multiLoop RAND_MAX rand limits dims func n (Dbl.add sum (func pt)) pt
        ⟨pos', e.evals ++ [pt]⟩

/-- The function `monteCarloMultidimensional(dimensions, limits, points, func)`.
It has no test on `points`: both loops run `max points 0` times. -/
def monteCarloMultidimensional (RAND_MAX : Nat) (rand : Nat → Nat) (dimensions : Int)
    (limits : List (Dbl × Dbl)) (points : Int) (func : List Dbl → Dbl)
    (e : Effects (List Dbl)) : Except Fault Dbl × Effects (List Dbl) :=
  if dimensions < 0 then (.error .lengthError, e)
  else
    match multiLoop RAND_MAX rand limits dimensions.toNat func points.toNat Dbl.zero
        (List.replicate dimensions.toNat Dbl.zero) e with
    | (.error f, e') => (.error f, e')
    | (.ok sum, e') =>
      (.ok (Dbl.div (Dbl.mul (volumeLoop limits) sum) (Dbl.ofInt points)), e')

/-- Largest value of a 32-bit `int`. -/
def INT_MAX : Int := 2147483647

/-- Smallest value of a 32-bit `int`. -/
def INT_MIN : Int := -2147483648

/-- Addition of two `int`s; leaving the 32-bit range is undefined behaviour. -/
def addInt (x y : Int) : Except Fault Int :=
  if INT_MIN ≤ x + y ∧ x + y ≤ INT_MAX then .ok (x + y) else .error .intOverflow

/-- The two vectors `pointsVec` and `errors` that the sweeps hand to `gp.plotData`. -/
structure Series where
  pointsVec : List Int
  errors : List Dbl

/-- The loop
`for (int points = 100; points <= maxPoints; points += maxPoints / 20) { ... }`
shared, up to the estimator called, by `plotErrors` and `plotMultidimensionalErrors`.
Arguments: fuel, the current `points`, the two vectors, the effects so far.  The
result is `none` when the fuel runs out before the loop ends. -/
def sweepLoop {α : Type} (estimate : Int → Effects α → Except Fault Dbl × Effects α)
    (maxPoints : Int) (exactResult : Dbl) :
    Nat → Int → Series → Effects α → Option (Except Fault Series × Effects α)
  | 0, _, _, _ => none
  | fuel + 1, points, s, e =>
    if points ≤ maxPoints then
      let pointsVec := s.pointsVec ++ [points]
      match estimate points e with
      | (.error f, e') => some (.error f, e')
      | (.ok approx, e') =>
        let errors := s.errors ++ [Dbl.abs (Dbl.sub approx exactResult)]
        match addInt points (Int.tdiv maxPoints 20) with
        | .error f => some (.error f, e')
        | .ok next => sweepLoop estimate maxPoints exactResult fuel next ⟨pointsVec, errors⟩ e'
    else some (.ok s, e)

/-- The body shared by `plotErrors` and `plotMultidimensionalErrors`: the stepping
loop from 100, then the test `pointsVec.back() != maxPoints` and the final point.
The result is the pair of vectors passed to `gp.plotData`. -/
def sweep {α : Type} (estimate : Int → Effects α → Except Fault Dbl × Effects α)
    (maxPoints : Int) (exactResult : Dbl) (fuel : Nat) (e : Effects α) :
    Option (Except Fault Series × Effects α) :=
  match sweepLoop estimate maxPoints exactResult fuel 100 ⟨[], []⟩ e with
  | none => none
  | some (.error f, e') => some (.error f, e')
  | some (.ok s, e') =>
    match s.pointsVec.getLast? with
    | none => some (.error .emptyBack, e')
    | some last =>
      if last ≠ maxPoints then
        match estimate maxPoints e' with
        | (.error f, e'') => some (.error f, e'')
        | (.ok approx, e'') =>
          some (.ok ⟨s.pointsVec ++ [maxPoints], s.errors ++ [Dbl.abs (Dbl.sub approx exactResult)]⟩, e'')
      else some (.ok s, e')

/-- The function `plotErrors(gp, func, a, b, maxPoints, exactResult)`. -/
def plotErrors (RAND_MAX : Nat) (rand : Nat → Nat) (func : Dbl → Dbl) (a b : Dbl)
    (maxPoints : Int) (exactResult : Dbl) (fuel : Nat) (e : Effects Dbl) :
    Option (Except Fault Series × Effects Dbl) :=
  sweep (fun points => monteCarloIntegral RAND_MAX rand a b points func)
    maxPoints exactResult fuel e

/-- The function
`plotMultidimensionalErrors(gp, func, limits, dimensions, maxPoints, exactResult)`. -/
def plotMultidimensionalErrors (RAND_MAX : Nat) (rand : Nat → Nat) (func : List Dbl → Dbl)
    (limits : List (Dbl × Dbl)) (dimensions : Int) (maxPoints : Int) (exactResult : Dbl)
    (fuel : Nat) (e : Effects (List Dbl)) : Option (Except Fault Series × Effects (List Dbl)) :=
  sweep (fun points => monteCarloMultidimensional RAND_MAX rand dimensions limits points func)
    maxPoints exactResult fuel e

/-- The point of the box `limits` that the spec's `RandomPointSource.drawVector`
builds from the draws at stream positions `pos, pos + 1, ...`: coordinate `d` is
`lower_d + (r / RAND_MAX) * (upper_d - lower_d)`, in double arithmetic, for the
draw `r` at `pos + d`. -/
def drawVector (RAND_MAX : Nat) (rand : Nat → Nat) (limits : List (Dbl × Dbl)) (pos : Nat) :
    List Dbl :=
  limits.mapIdx (fun d limit => samplePoint RAND_MAX limit.1 limit.2 (rand (pos + d)))


namespace Dbl

/-! ## Binary length -/

theorem bitLengthAux_spec (fuel m : Nat) (h : m ≤ fuel) :
    m < 2 ^ bitLengthAux fuel m ∧ (m ≠ 0 → 2 ^ (bitLengthAux fuel m - 1) ≤ m) := by
  induction fuel generalizing m with
  | zero =>
    have hm : m = 0 := by omega
    subst hm
    simp [bitLengthAux]
  | succ fuel ih =>
    rw [bitLengthAux]
    by_cases hm : m = 0
    · subst hm; simp
    · simp only [hm, if_false]
      obtain ⟨h1, h2⟩ := ih (m / 2) (by omega)
      refine ⟨?_, fun _ => ?_⟩
      · rw [pow_succ]; omega
      · simp only [Nat.add_sub_cancel]
        by_cases hhalf : m / 2 = 0
        · rw [hhalf]
          have : bitLengthAux fuel 0 = 0 := by cases fuel <;> simp [bitLengthAux]
          rw [this]; simp; omega
        · have h3 := h2 hhalf
          have hpos : 0 < bitLengthAux fuel (m / 2) := by
            rcases Nat.eq_zero_or_pos (bitLengthAux fuel (m / 2)) with h0 | h0
            · rw [h0] at h1; simp at h1; omega
            · exact h0
          have hs : bitLengthAux fuel (m / 2) = (bitLengthAux fuel (m / 2) - 1) + 1 := by omega
          rw [hs, pow_succ]; omega

theorem lt_pow_bitLength (m : Nat) : m < 2 ^ bitLength m :=
  (bitLengthAux_spec m m le_rfl).1

theorem pow_bitLength_le (m : Nat) (hm : m ≠ 0) : 2 ^ (bitLength m - 1) ≤ m :=
  (bitLengthAux_spec m m le_rfl).2 hm

theorem bitLength_pos (m : Nat) (hm : m ≠ 0) : 0 < bitLength m := by
  rcases Nat.eq_zero_or_pos (bitLength m) with h0 | h0
  · have := lt_pow_bitLength m
    rw [h0] at this; simp at this; omega
  · exact h0

theorem bitLength_eq (m k : Nat) (hlo : 2 ^ k ≤ m) (hhi : m < 2 ^ (k + 1)) :
    bitLength m = k + 1 := by
  have hm : m ≠ 0 := by
    have : 0 < 2 ^ k := Nat.pow_pos (by decide)
    omega
  have h1 := lt_pow_bitLength m
  have h2 := pow_bitLength_le m hm
  have hpos := bitLength_pos m hm
  have ha : k < bitLength m := by
    by_contra hcon
    have : 2 ^ bitLength m ≤ 2 ^ k := Nat.pow_le_pow_right (by decide) (by omega)
    omega
  have hb : bitLength m - 1 < k + 1 := by
    by_contra hcon
    have : 2 ^ (k + 1) ≤ 2 ^ (bitLength m - 1) := Nat.pow_le_pow_right (by decide) (by omega)
    omega
  omega

theorem bitLength_le_of_lt (m k : Nat) (h : m < 2 ^ k) : bitLength m ≤ k := by
  by_cases hm : m = 0
  · subst hm; simp [bitLength, bitLengthAux]
  · by_contra hcon
    have h2 := pow_bitLength_le m hm
    have : 2 ^ k ≤ 2 ^ (bitLength m - 1) := Nat.pow_le_pow_right (by decide) (by omega)
    omega

theorem bitLength_mul_pow (m j : Nat) (hm : m ≠ 0) :
    bitLength (m * 2 ^ j) = bitLength m + j := by
  have hpos := bitLength_pos m hm
  have h1 := lt_pow_bitLength m
  have h2 := pow_bitLength_le m hm
  have hk : bitLength m + j = (bitLength m - 1 + j) + 1 := by omega
  rw [hk]
  apply bitLength_eq
  · rw [pow_add]; exact Nat.mul_le_mul_right _ h2
  · have : bitLength m - 1 + j + 1 = bitLength m + j := by omega
    rw [this, pow_add]
    exact Nat.mul_lt_mul_of_lt_of_le h1 le_rfl (Nat.pow_pos (by decide))

end Dbl

namespace Dbl

/-! ## Rounding -/

theorem round_zero (s : Bool) (e : Int) : round s 0 e = fin s 0 (-1074) := by
  simp [round]

theorem round_canonical (s : Bool) (m : Nat) (e : Int)
    (h : isCanonical (fin s m e) = true) : round s m e = fin s m e := by
  simp only [isCanonical, decide_eq_true_eq] at h
  obtain ⟨hm, hlo, hhi, hsub⟩ := h
  by_cases h0 : m = 0
  · subst h0
    rw [round_zero, hsub (by decide)]
  · have hL : bitLength m ≤ 53 := bitLength_le_of_lt m 53 (by norm_num; exact hm)
    have hE : max (e + (bitLength m : Int) - 53) (-1074) = e := by
      by_cases hbig : m < 4503599627370496
      · have he := hsub hbig
        have : bitLength m ≤ 52 := bitLength_le_of_lt m 52 (by norm_num; exact hbig)
        omega
      · have : bitLength m = 53 := bitLength_eq m 52 (by norm_num; omega) (by norm_num; exact hm)
        omega
    simp only [round, h0, if_false, hE, le_refl, if_true, sub_self, Int.toNat_zero, pow_zero,
      mul_one, finOrInf, not_lt.mpr hhi]

theorem roundMant_scale (m sh j : Nat) (hsh : 1 ≤ sh) :
    roundMant (m * 2 ^ j) (sh + j) = roundMant m sh := by
  have hj : 0 < 2 ^ j := Nat.pow_pos (by decide)
  have hpow : 2 ^ (sh + j) = 2 ^ sh * 2 ^ j := pow_add 2 sh j
  have hhalf : 2 ^ (sh + j - 1) = 2 ^ (sh - 1) * 2 ^ j := by
    rw [← pow_add]; congr 1; omega
  have hdiv : m * 2 ^ j / (2 ^ sh * 2 ^ j) = m / 2 ^ sh := Nat.mul_div_mul_right _ _ hj
  have hmod : m * 2 ^ j % (2 ^ sh * 2 ^ j) = m % 2 ^ sh * 2 ^ j := Nat.mul_mod_mul_right _ _ _
  simp only [roundMant, hpow, hhalf, hdiv, hmod]
  have h1 : (2 ^ (sh - 1) * 2 ^ j < m % 2 ^ sh * 2 ^ j) ↔ (2 ^ (sh - 1) < m % 2 ^ sh) :=
    Nat.mul_lt_mul_right hj
  have h2 : (m % 2 ^ sh * 2 ^ j = 2 ^ (sh - 1) * 2 ^ j) ↔ (m % 2 ^ sh = 2 ^ (sh - 1)) :=
    Nat.mul_right_cancel_iff hj
  simp only [h1, h2]

theorem roundMant_exact (m sh j : Nat) (hsh : sh ≤ j) :
    roundMant (m * 2 ^ j) sh = m * 2 ^ (j - sh) := by
  have hpow : 2 ^ j = 2 ^ (j - sh) * 2 ^ sh := by rw [← pow_add]; congr 1; omega
  have hs : 0 < 2 ^ sh := Nat.pow_pos (by decide)
  have hmod : m * 2 ^ j % 2 ^ sh = 0 := by
    rw [hpow, ← Nat.mul_assoc]; exact Nat.mul_mod_left _ _
  have hdiv : m * 2 ^ j / 2 ^ sh = m * 2 ^ (j - sh) := by
    rw [hpow, ← Nat.mul_assoc]; exact Nat.mul_div_cancel _ hs
  have hhalf : 0 < 2 ^ (sh - 1) := Nat.pow_pos (by decide)
  simp only [roundMant, hmod, hdiv]
  have : ¬ (2 ^ (sh - 1) < 0 ∨ 0 = 2 ^ (sh - 1) ∧ m * 2 ^ (j - sh) % 2 = 1) := by
    rintro (h | ⟨h, -⟩) <;> omega
  simp only [this, if_false]

theorem round_scale (s : Bool) (m j : Nat) (e : Int) :
    round s (m * 2 ^ j) (e - (j : Int)) = round s m e := by
  by_cases h0 : m = 0
  · subst h0; simp [round_zero]
  · have hj : 0 < 2 ^ j := Nat.pow_pos (by decide)
    have h0' : m * 2 ^ j ≠ 0 := Nat.mul_ne_zero h0 hj.ne'
    have hL : bitLength (m * 2 ^ j) = bitLength m + j := bitLength_mul_pow m j h0
    have hE : max (e - (j : Int) + ((bitLength m + j : Nat) : Int) - 53) (-1074)
        = max (e + (bitLength m : Int) - 53) (-1074) := by
      congr 1; push_cast; ring
    simp only [round, h0, h0', if_false, hL, hE]
    generalize hEdef : max (e + (bitLength m : Int) - 53) (-1074) = E
    have hEge : e + (bitLength m : Int) - 53 ≤ E := by rw [← hEdef]; exact le_max_left _ _
    by_cases hc1 : E ≤ e - (j : Int)
    · have hc2 : E ≤ e := by omega
      simp only [hc1, hc2, if_true]
      have : (e - E).toNat = j + (e - (j : Int) - E).toNat := by omega
      rw [this, pow_add, Nat.mul_assoc]
    · simp only [hc1, if_false]
      by_cases hc2 : E ≤ e
      · simp only [hc2, if_true]
        have hsh : (E - (e - (j : Int))).toNat ≤ j := by omega
        rw [roundMant_exact m _ j hsh]
        have hexp : j - (E - (e - (j : Int))).toNat = (e - E).toNat := by omega
        rw [hexp]
        have hlt : m * 2 ^ (e - E).toNat < 9007199254740992 := by
          have hb : bitLength (m * 2 ^ (e - E).toNat) = bitLength m + (e - E).toNat :=
            bitLength_mul_pow m _ h0
          have hlt := lt_pow_bitLength (m * 2 ^ (e - E).toNat)
          rw [hb] at hlt
          have : 2 ^ (bitLength m + (e - E).toNat) ≤ 2 ^ 53 :=
            Nat.pow_le_pow_right (by decide) (by omega)
          have h53 : (2 : Nat) ^ 53 = 9007199254740992 := by norm_num
          omega
        simp only [hlt.ne, if_false]
      · simp only [hc2, if_false]
        have hsh : (E - (e - (j : Int))).toNat = (E - e).toNat + j := by omega
        rw [hsh, roundMant_scale m _ j (by omega)]

end Dbl

namespace Dbl

/-! ## Special cases of the operations -/

theorem ofInt_natCast (n : Nat) : ofInt (n : Int) = round false n 0 := by
  have : ¬ ((n : Int) < 0) := by omega
  simp [ofInt, this]

theorem round_nat (n : Nat) (hn : n ≠ 0) (hlt : n < 9007199254740992) :
    round false n 0
      = fin false (n * 2 ^ (53 - bitLength n)) ((bitLength n : Int) - 53) := by
  have hL : bitLength n ≤ 53 := bitLength_le_of_lt n 53 (by norm_num; exact hlt)
  have hE : max (0 + (bitLength n : Int) - 53) (-1074) = (bitLength n : Int) - 53 := by omega
  have hle : (bitLength n : Int) - 53 ≤ 0 := by omega
  have hexp : (0 - ((bitLength n : Int) - 53)).toNat = 53 - bitLength n := by omega
  have hfin : ¬ (971 < (bitLength n : Int) - 53) := by omega
  simp only [round, hn, if_false, hE, hle, if_true, hexp, finOrInf, hfin]

theorem ofInt_pos (n : Int) (hn : 1 ≤ n) (hmax : n ≤ 2147483647) :
    ∃ m e, ofInt n = fin false m e ∧ m ≠ 0 := by
  obtain ⟨k, rfl⟩ : ∃ k : Nat, n = (k : Int) := ⟨n.toNat, by omega⟩
  have hk : k ≠ 0 := by omega
  rw [ofInt_natCast, round_nat k hk (by omega)]
  exact ⟨_, _, rfl, Nat.mul_ne_zero hk (Nat.pow_pos (by decide)).ne'⟩

theorem sub_self_finite (s : Bool) (m : Nat) (e : Int) :
    sub (fin s m e) (fin s m e) = zero := by
  cases s <;> simp [sub, neg, add, signed, zero]

theorem mul_zero_finite (s t : Bool) (e : Int) (m : Nat) (e2 : Int) :
    mul (fin s 0 e) (fin t m e2) = fin (xor s t) 0 (-1074) := by
  simp [mul, round_zero]

theorem mul_finite_zero (s t : Bool) (e : Int) (m : Nat) (e2 : Int) :
    mul (fin t m e2) (fin s 0 e) = fin (xor t s) 0 (-1074) := by
  simp [mul, round_zero]

theorem div_zero_finite (s t : Bool) (e : Int) (m : Nat) (e2 : Int) (hm : m ≠ 0) :
    div (fin s 0 e) (fin t m e2) = fin (xor s t) 0 (-1074) := by
  simp [div, hm, round_zero]

theorem isZero_iff (x : Dbl) : x.isZero = true ↔ ∃ s e, x = fin s 0 e := by
  cases x with
  | nan => simp [isZero]
  | inf s => simp [isZero]
  | fin s m e =>
    simp only [isZero, decide_eq_true_eq]
    constructor
    · rintro rfl; exact ⟨s, e, rfl⟩
    · rintro ⟨s', e', h⟩; injection h with _ hm _

/-- The value `0 * sum / points` computed by the estimators when the volume
factor is a zero: a zero when `sum` is finite, NaN otherwise. -/
theorem zero_mul_div (z sum : Dbl) (points : Int) (hz : z.isZero = true) (hp : 1 ≤ points)
    (hmax : points ≤ 2147483647) :
    (sum.isFinite = true → (div (mul z sum) (ofInt points)).isZero = true)
    ∧ (sum.isFinite = false → div (mul z sum) (ofInt points) = nan) := by
  obtain ⟨s, e, rfl⟩ := (isZero_iff z).mp hz
  obtain ⟨m, e2, hof, hm⟩ := ofInt_pos points hp hmax
  rw [hof]
  cases sum with
  | nan => simp [mul, div, isFinite]
  | inf t => simp [mul, div, isFinite]
  | fin t m3 e3 =>
    simp [isFinite, mul_zero_finite, div_zero_finite _ _ _ _ _ hm, isZero]

theorem nan_mul_div (sum : Dbl) (points : Int) :
    div (mul nan sum) (ofInt points) = nan := by
  simp [mul, div]

end Dbl

namespace Dbl

/-! ## Exact cases: adding a zero, counting in ones, multiplying by one -/

theorem signed_natAbs (s : Bool) (M : Nat) (hM : M ≠ 0) :
    signed s M ≠ 0 ∧ decide (signed s M < 0) = s ∧ (signed s M).natAbs = M := by
  have hpos : (0 : Int) < (M : Int) := by exact_mod_cast Nat.pos_of_ne_zero hM
  cases s
  · simp only [signed, Bool.false_eq_true, if_false, Int.natAbs_ofNat]
    refine ⟨by omega, ?_, trivial⟩
    simp
  · simp only [signed, if_true, Int.natAbs_neg, Int.natAbs_ofNat]
    refine ⟨by omega, ?_, trivial⟩
    simp
    omega

theorem signed_zero (s : Bool) : signed s 0 = 0 := by
  cases s <;> simp [signed]

theorem add_zero_right (s t : Bool) (m : Nat) (e e' : Int)
    (hc : isCanonical (fin s m e) = true) (hm : m ≠ 0) :
    add (fin s m e) (fin t 0 e') = fin s m e := by
  have hM : m * 2 ^ (e - min e e').toNat ≠ 0 := Nat.mul_ne_zero hm (Nat.pow_pos (by decide)).ne'
  obtain ⟨h1, h2, h3⟩ := signed_natAbs s _ hM
  have he : min e e' = e - (((e - min e e').toNat : Nat) : Int) := by omega
  have hr := round_scale s m (e - min e e').toNat e
  rw [← he] at hr
  rw [add]
  simp only [Nat.zero_mul, signed_zero, add_zero, h1, if_false, h2, h3]
  rw [hr, round_canonical s m e hc]

theorem add_zero_left (s t : Bool) (m : Nat) (e e' : Int)
    (hc : isCanonical (fin s m e) = true) (hm : m ≠ 0) :
    add (fin t 0 e') (fin s m e) = fin s m e := by
  have hM : m * 2 ^ (e - min e' e).toNat ≠ 0 := Nat.mul_ne_zero hm (Nat.pow_pos (by decide)).ne'
  obtain ⟨h1, h2, h3⟩ := signed_natAbs s _ hM
  have he : min e' e = e - (((e - min e' e).toNat : Nat) : Int) := by omega
  have hr := round_scale s m (e - min e' e).toNat e
  rw [← he] at hr
  rw [add]
  simp only [Nat.zero_mul, signed_zero, zero_add, h1, if_false, h2, h3]
  rw [hr, round_canonical s m e hc]

theorem add_nonneg (m1 m2 : Nat) (e1 e2 : Int)
    (h : m1 * 2 ^ (e1 - min e1 e2).toNat + m2 * 2 ^ (e2 - min e1 e2).toNat ≠ 0) :
    add (fin false m1 e1) (fin false m2 e2)
      = round false (m1 * 2 ^ (e1 - min e1 e2).toNat + m2 * 2 ^ (e2 - min e1 e2).toNat)
          (min e1 e2) := by
  have hc : (signed false (m1 * 2 ^ (e1 - min e1 e2).toNat)
      + signed false (m2 * 2 ^ (e2 - min e1 e2).toNat))
      = signed false (m1 * 2 ^ (e1 - min e1 e2).toNat + m2 * 2 ^ (e2 - min e1 e2).toNat) := by
    simp [signed]
  obtain ⟨h1, h2, h3⟩ := signed_natAbs false _ h
  rw [add]
  simp only [hc, h1, if_false, h2, h3]

theorem one_canonical : isCanonical one = true := by decide

theorem round_one : round false 1 0 = one := by
  rw [round_nat 1 (by decide) (by decide)]
  decide

theorem add_round_one (k : Nat) (hk : k + 1 < 9007199254740992) :
    add (round false k 0) one = round false (k + 1) 0 := by
  by_cases h0 : k = 0
  · subst h0
    rw [round_zero, one, add_zero_left false false _ _ _ one_canonical (by decide)]
    exact round_one.symm
  · rw [round_nat k h0 (by omega), one]
    have hL := bitLength_pos k h0
    have hL53 : bitLength k ≤ 53 := bitLength_le_of_lt k 53 (by norm_num; omega)
    have hmin : min ((bitLength k : Int) - 53) (-52) = -52 := by omega
    have hx1 : ((bitLength k : Int) - 53 - (-52)).toNat = bitLength k - 1 := by omega
    have hx2 : ((-52 : Int) - (-52)).toNat = 0 := by decide
    have hsum : k * 2 ^ (53 - bitLength k) * 2 ^ (bitLength k - 1) + 4503599627370496 * 2 ^ 0
        = (k + 1) * 2 ^ 52 := by
      rw [Nat.mul_assoc, ← pow_add]
      have : 53 - bitLength k + (bitLength k - 1) = 52 := by omega
      rw [this]; norm_num; ring
    have hne : k * 2 ^ (53 - bitLength k) * 2 ^ (bitLength k - 1) + 4503599627370496 * 2 ^ 0
        ≠ 0 := by rw [hsum]; positivity
    have h := add_nonneg (k * 2 ^ (53 - bitLength k)) 4503599627370496
      ((bitLength k : Int) - 53) (-52)
    rw [hmin, hx1, hx2] at h
    rw [h hne, hsum]
    exact round_scale false (k + 1) 52 0

theorem foldl_add_ones (n : Nat) (hn : n < 9007199254740992) :
    (List.replicate n one).foldl add zero = round false n 0 := by
  induction n with
  | zero => rw [round_zero]; rfl
  | succ n ih =>
    rw [List.replicate_succ', List.foldl_append, ih (by omega)]
    exact add_round_one n hn

theorem mul_one_round (n : Nat) (hn : n < 9007199254740992) :
    mul one (round false n 0) = round false n 0 := by
  by_cases h0 : n = 0
  · subst h0
    rw [round_zero, one, mul_finite_zero]
    rfl
  · have hL53 : bitLength n ≤ 53 := bitLength_le_of_lt n 53 (by norm_num; omega)
    have hL := bitLength_pos n h0
    have hm : 4503599627370496 * (n * 2 ^ (53 - bitLength n)) = n * 2 ^ (105 - bitLength n) := by
      have : 105 - bitLength n = 53 - bitLength n + 52 := by omega
      rw [this, pow_add]; norm_num; ring
    have he : (-52 : Int) + ((bitLength n : Int) - 53) = 0 - ((105 - bitLength n : Nat) : Int) := by
      omega
    have hstep : mul one (fin false (n * 2 ^ (53 - bitLength n)) ((bitLength n : Int) - 53))
        = round false (n * 2 ^ (105 - bitLength n)) (0 - ((105 - bitLength n : Nat) : Int)) := by
      simp only [one, mul, Bool.xor_false, hm, he]
    rw [round_nat n h0 hn, hstep, round_scale false n (105 - bitLength n) 0,
      round_nat n h0 hn]

theorem div_self_finite (s : Bool) (m : Nat) (e : Int) (hm : m ≠ 0) :
    div (fin s m e) (fin s m e) = one := by
  have hq : m * 2 ^ (bitLength m + 64) / m = 2 ^ (bitLength m + 64) :=
    Nat.mul_div_cancel_left _ (Nat.pos_of_ne_zero hm)
  have hr : m * 2 ^ (bitLength m + 64) % m = 0 := Nat.mul_mod_right _ _
  have hm2 : 2 * 2 ^ (bitLength m + 64) + 0 = 1 * 2 ^ (bitLength m + 64 + 1) := by
    rw [pow_succ]; ring
  have he : e - e - ((bitLength m + 64 : Nat) : Int) - 1
      = 0 - ((bitLength m + 64 + 1 : Nat) : Int) := by push_cast; ring
  simp only [div, hm, if_false, hq, hr, if_true, Bool.xor_self, hm2, he]
  rw [round_scale false 1 _ 0, round_one]

theorem sub_zero_right (s : Bool) (m : Nat) (e : Int)
    (hc : isCanonical (fin s m e) = true) (hm : m ≠ 0) : sub (fin s m e) zero = fin s m e :=
  add_zero_right s true m e (-1074) hc hm

theorem sub_one_zero : sub one zero = one := by
  exact add_zero_right false true _ _ _ one_canonical (by decide)

theorem mul_one_one : mul one one = one := by
  have h := mul_one_round 1 (by decide)
  rwa [round_one] at h

end Dbl

namespace Dbl

/-! ## Rounding next to a representable value -/

end Dbl

namespace Dbl

/-! ## The sampled point -/

end Dbl

namespace Dbl

end Dbl
/-! ## The scalar estimator -/

theorem integralLoop_eq (RAND_MAX : Nat) (rand : Nat → Nat) (a b : Dbl)
    (func : Dbl → Dbl) (n : Nat) (sum : Dbl) (e : Effects Dbl) :
    integralLoop RAND_MAX rand a b func n sum e =
      ((((List.range n).map
          (fun i => samplePoint RAND_MAX a b (rand (e.pos + i)))).map func).foldl Dbl.add sum,
        ⟨e.pos + n, e.evals ++ (List.range n).map
          (fun i => samplePoint RAND_MAX a b (rand (e.pos + i)))⟩) := by
  induction n generalizing sum e with
  | zero => simp [integralLoop]
  | succ n ih =>
    rw [integralLoop]
    simp only [ih, List.range_succ_eq_map, List.map_cons, List.map_map, List.foldl_cons,
      Nat.add_zero]
    have hidx : ∀ i : Nat, e.pos + 1 + i = e.pos + (i + 1) := fun i => by omega
    simp [Function.comp_def, hidx, Nat.succ_eq_add_one]

theorem monteCarloIntegral_eq (RAND_MAX : Nat) (rand : Nat → Nat)
    (a b : Dbl) (func : Dbl → Dbl) (points : Int) (hp : 0 < points) (e : Effects Dbl) :
    monteCarloIntegral RAND_MAX rand a b points func e =
      (.ok (Dbl.div (Dbl.mul (Dbl.sub b a) ((((List.range points.toNat).map
          (fun i => samplePoint RAND_MAX a b (rand (e.pos + i)))).map func).foldl
            Dbl.add Dbl.zero)) (Dbl.ofInt points)),
        ⟨e.pos + points.toNat, e.evals ++ (List.range points.toNat).map
          (fun i => samplePoint RAND_MAX a b (rand (e.pos + i)))⟩) := by
  simp [monteCarloIntegral, not_le.mpr hp, integralLoop_eq]

/-! ## The N-dimensional estimator -/

theorem drawVector_drop (RAND_MAX : Nat) (rand : Nat → Nat) (limits : List (Dbl × Dbl))
    (pos d : Nat) (hd : d < limits.length) :
    drawVector RAND_MAX rand (limits.drop d) pos =
      samplePoint RAND_MAX limits[d].1 limits[d].2 (rand pos)
        :: drawVector RAND_MAX rand (limits.drop (d + 1)) (pos + 1) := by
  rw [List.drop_eq_getElem_cons hd]
  simp only [drawVector, List.mapIdx_cons, Nat.add_zero]
  simp only [Nat.add_assoc, Nat.add_comm 1]

theorem take_set_same (l : List Dbl) (d : Nat) (x : Dbl) : (l.set d x).take d = l.take d := by
  induction l generalizing d with
  | nil => simp
  | cons y ys ih => cases d <;> simp [ih]

theorem pointLoop_eq (RAND_MAX : Nat) (rand : Nat → Nat)
    (limits : List (Dbl × Dbl)) (k d : Nat) (randomPoint : List Dbl) (pos : Nat)
    (hk : d + k = limits.length) (hlen : randomPoint.length = limits.length) :
    pointLoop RAND_MAX rand limits k d randomPoint pos =
      (.ok (randomPoint.take d ++ drawVector RAND_MAX rand (limits.drop d) pos), pos + k) := by
  induction k generalizing d randomPoint pos with
  | zero =>
    have hd : d = limits.length := by omega
    subst hd
    simp [pointLoop, drawVector, ← hlen]
  | succ k ih =>
    have hd : d < limits.length := by omega
    have hd' : d < randomPoint.length := by omega
    rw [pointLoop, List.getElem?_eq_getElem hd]
    simp only []
    rw [ih (d + 1) _ (pos + 1) (by omega) (by simpa using hlen), drawVector_drop _ _ _ _ _ hd]
    have htake : List.take (d + 1) (randomPoint.set d
        (samplePoint RAND_MAX limits[d].1 limits[d].2 (rand pos)))
        = List.take d randomPoint
          ++ [samplePoint RAND_MAX limits[d].1 limits[d].2 (rand pos)] := by
      rw [List.take_succ, List.getElem?_set_self hd', take_set_same]
      rfl
    rw [htake]
    simp [Nat.add_assoc, Nat.add_comm 1 k]

theorem pointLoop_full (RAND_MAX : Nat) (rand : Nat → Nat)
    (limits : List (Dbl × Dbl)) (randomPoint : List Dbl) (pos : Nat)
    (hlen : randomPoint.length = limits.length) :
    pointLoop RAND_MAX rand limits limits.length 0 randomPoint pos =
      (.ok (drawVector RAND_MAX rand limits pos), pos + limits.length) := by
  rw [pointLoop_eq RAND_MAX rand limits limits.length 0 randomPoint pos (by omega) hlen]
  simp

theorem drawVector_length (RAND_MAX : Nat) (rand : Nat → Nat) (limits : List (Dbl × Dbl))
    (pos : Nat) : (drawVector RAND_MAX rand limits pos).length = limits.length := by
  simp [drawVector]

theorem drawVector_getElem? (RAND_MAX : Nat) (rand : Nat → Nat) (limits : List (Dbl × Dbl))
    (pos d : Nat) :
    (drawVector RAND_MAX rand limits pos)[d]? = limits[d]?.map (fun limit =>
      samplePoint RAND_MAX limit.1 limit.2 (rand (pos + d))) := by
  simp [drawVector, List.getElem?_mapIdx]

theorem multiLoop_eq (RAND_MAX : Nat) (rand : Nat → Nat)
    (limits : List (Dbl × Dbl)) (func : List Dbl → Dbl) (n : Nat) (sum : Dbl)
    (randomPoint : List Dbl) (e : Effects (List Dbl))
    (hlen : randomPoint.length = limits.length) :
    multiLoop RAND_MAX rand limits limits.length func n sum randomPoint e =
      (.ok ((((List.range n).map
          (fun i => drawVector RAND_MAX rand limits (e.pos + i * limits.length))).map
            func).foldl Dbl.add sum),
        ⟨e.pos + n * limits.length, e.evals ++ (List.range n).map
          (fun i => drawVector RAND_MAX rand limits (e.pos + i * limits.length))⟩) := by
  induction n generalizing sum randomPoint e with
  | zero => simp [multiLoop]
  | succ n ih =>
    rw [multiLoop, pointLoop_full RAND_MAX rand limits randomPoint e.pos hlen]
    simp only [ih _ _ _ (drawVector_length RAND_MAX rand limits e.pos),
      List.range_succ_eq_map, List.map_cons, List.map_map, List.foldl_cons]
    have hidx : ∀ i : Nat, e.pos + limits.length + i * limits.length
        = e.pos + (i + 1) * limits.length := fun i => by ring
    simp [Function.comp_def, hidx, Nat.succ_eq_add_one, Nat.add_mul]

theorem monteCarloMultidimensional_eq (RAND_MAX : Nat) (rand : Nat → Nat)
    (limits : List (Dbl × Dbl)) (func : List Dbl → Dbl) (points : Int)
    (e : Effects (List Dbl)) :
    monteCarloMultidimensional RAND_MAX rand (limits.length : Int) limits points func e =
      (.ok (Dbl.div (Dbl.mul (volumeLoop limits) ((((List.range points.toNat).map
          (fun i => drawVector RAND_MAX rand limits (e.pos + i * limits.length))).map
            func).foldl Dbl.add Dbl.zero)) (Dbl.ofInt points)),
        ⟨e.pos + points.toNat * limits.length, e.evals ++ (List.range points.toNat).map
          (fun i => drawVector RAND_MAX rand limits (e.pos + i * limits.length))⟩) := by
  have hdim : ¬ ((limits.length : Int) < 0) := by omega
  simp only [monteCarloMultidimensional, hdim, if_false, Int.toNat_ofNat]
  rw [multiLoop_eq RAND_MAX rand limits func _ _ _ _ (by simp)]

/-! ## The convergence sweep -/

theorem tdiv20_of_nonneg (M : Int) (hM : 0 ≤ M) : Int.tdiv M 20 = M / 20 :=
  Int.tdiv_eq_ediv hM (by decide)

theorem addInt_ok (x y : Int) (hlo : INT_MIN ≤ x + y) (hhi : x + y ≤ INT_MAX) :
    addInt x y = .ok (x + y) := by
  simp [addInt, hlo, hhi]

theorem addInt_overflow (x y : Int) (hhi : INT_MAX < x + y) :
    addInt x y = .error .intOverflow := by
  have h : ¬ (x + y ≤ INT_MAX) := not_le.mpr hhi
  simp [addInt, h]

/-- The stepping loop, started at a reachable count `p = 100 + i * step` with a
positive step none of whose increments overflows, returns the counts
`p, p + step, ...` not above `maxPoints`. -/
theorem sweepLoop_run {α : Type} (estimate : Int → Effects α → Except Fault Dbl × Effects α)
    (M : Int) (x : Dbl)
    (hest : ∀ p e, 0 < p → ∃ v e', estimate p e = (Except.ok v, e'))
    (hstep : 0 < Int.tdiv M 20)
    (hsafe : ∀ i : Nat, 100 + (i : Int) * Int.tdiv M 20 ≤ M →
      100 + (i : Int) * Int.tdiv M 20 + Int.tdiv M 20 ≤ INT_MAX)
    (fuel : Nat) (p : Int) (s : Series) (e : Effects α)
    (hreach : ∃ i : Nat, p = 100 + (i : Int) * Int.tdiv M 20) (h0 : 0 < fuel)
    (hfuel : M - p + Int.tdiv M 20 < (fuel : Int) * Int.tdiv M 20) :
    ∃ L errs e', sweepLoop estimate M x fuel p s e
        = some (.ok ⟨s.pointsVec ++ L, s.errors ++ errs⟩, e')
      ∧ errs.length = L.length ∧ (∀ y ∈ L, p ≤ y ∧ y ≤ M) ∧ L.Pairwise (· < ·)
      ∧ (M < p → L = [])
      ∧ (p ≤ M → L ≠ [] ∧ (L.length : Int) * Int.tdiv M 20 ≤ M - p + Int.tdiv M 20) := by
  induction fuel generalizing p s e with
  | zero => omega
  | succ fuel ih =>
    obtain ⟨i, hi⟩ := hreach
    have hp : 0 < p := by
      have : 0 ≤ (i : Int) * Int.tdiv M 20 := mul_nonneg (by positivity) hstep.le
      omega
    by_cases hle : p ≤ M
    · obtain ⟨v, e1, hv⟩ := hest p e hp
      have hadd : addInt p (Int.tdiv M 20) = .ok (p + Int.tdiv M 20) := by
        apply addInt_ok
        · simp only [INT_MIN]; omega
        · have := hsafe i (by rw [← hi]; exact hle)
          rw [← hi] at this; exact this
      have hcast : ((fuel + 1 : Nat) : Int) * Int.tdiv M 20
          = (fuel : Int) * Int.tdiv M 20 + Int.tdiv M 20 := by push_cast; ring
      have hfuel' : M - (p + Int.tdiv M 20) + Int.tdiv M 20
          < (fuel : Int) * Int.tdiv M 20 := by linarith
      have h0' : 0 < fuel := by
        rcases Nat.eq_zero_or_pos fuel with h | h
        · subst h; simp at hfuel'; omega
        · exact h
      have hreach' : ∃ j : Nat, p + Int.tdiv M 20 = 100 + (j : Int) * Int.tdiv M 20 :=
        ⟨i + 1, by rw [hi]; push_cast; ring⟩
      obtain ⟨L, errs, e', hrun, hlen, hmem, hpw, hnil, hne⟩ :=
        ih (p + Int.tdiv M 20) ⟨s.pointsVec ++ [p], s.errors ++ [Dbl.abs (Dbl.sub v x)]⟩ e1
          hreach' h0' hfuel'
      refine ⟨p :: L, Dbl.abs (Dbl.sub v x) :: errs, e', ?_, by simp [hlen], ?_, ?_, ?_, ?_⟩
      · rw [sweepLoop]
        simp only [hle, if_true, hv, hadd, hrun]
        simp
      · intro y hy
        rcases List.mem_cons.mp hy with h | h
        · subst h; exact ⟨le_refl _, hle⟩
        · have := hmem y h; omega
      · refine List.pairwise_cons.mpr ⟨?_, hpw⟩
        intro y hy
        have := hmem y hy; omega
      · intro h; omega
      · intro _
        refine ⟨by simp, ?_⟩
        by_cases hnext : p + Int.tdiv M 20 ≤ M
        · have := (hne hnext).2
          simp only [List.length_cons]; push_cast; linarith
        · have hL : L = [] := hnil (by omega)
          subst hL; simp; omega
    · refine ⟨[], [], e, ?_, rfl, by simp, List.Pairwise.nil, fun _ => rfl, fun h => absurd h hle⟩
      rw [sweepLoop]
      simp [hle]

/-- When the first count above `maxPoints` still fits an `int`, no increment of
the stepping loop overflows. -/
theorem step_safe (M : Int) (hstep : 0 < Int.tdiv M 20)
    (hover : 100 + ((M - 100) / Int.tdiv M 20 + 1) * Int.tdiv M 20 ≤ INT_MAX) (i : Nat)
    (hi : 100 + (i : Int) * Int.tdiv M 20 ≤ M) :
    100 + (i : Int) * Int.tdiv M 20 + Int.tdiv M 20 ≤ INT_MAX := by
  have hle : (i : Int) ≤ (M - 100) / Int.tdiv M 20 :=
    Int.le_ediv_of_mul_le hstep (by linarith)
  have hmul : ((i : Int) + 1) * Int.tdiv M 20
      ≤ ((M - 100) / Int.tdiv M 20 + 1) * Int.tdiv M 20 :=
    mul_le_mul_of_nonneg_right (by linarith) hstep.le
  linarith

theorem count_eq_one_of_increasing (l : List Int) (y : Int) (hpw : l.Pairwise (· < ·))
    (hy : y ∈ l) : l.count y = 1 :=
  List.count_eq_one_of_mem (hpw.imp (fun h => ne_of_lt h)) hy

/-- The two sweeps, for a maximum of at least 100 whose step cannot overflow:
the loop returns, and the final series ends on `maxPoints`. -/
theorem sweep_run {α : Type} (estimate : Int → Effects α → Except Fault Dbl × Effects α)
    (M : Int) (x : Dbl)
    (hest : ∀ p e, 0 < p → ∃ v e', estimate p e = (Except.ok v, e'))
    (hM : 100 ≤ M)
    (hover : 100 + ((M - 100) / Int.tdiv M 20 + 1) * Int.tdiv M 20 ≤ INT_MAX)
    (fuel : Nat) (hfuel : 21 ≤ fuel) (e : Effects α) :
    ∃ loopS e1 s e', sweepLoop estimate M x fuel 100 ⟨[], []⟩ e = some (.ok loopS, e1)
      ∧ sweep estimate M x fuel e = some (.ok s, e')
      ∧ loopS.pointsVec ≠ [] ∧ loopS.pointsVec.Pairwise (· < ·)
      ∧ loopS.pointsVec.length ≤ 20 ∧ (∀ y ∈ loopS.pointsVec, 100 ≤ y ∧ y ≤ M)
      ∧ s.pointsVec = (if loopS.pointsVec.getLast? = some M then loopS.pointsVec
          else loopS.pointsVec ++ [M])
      ∧ s.pointsVec ≠ [] ∧ s.pointsVec.getLast? = some M ∧ s.pointsVec.count M = 1
      ∧ s.pointsVec.Pairwise (· < ·) ∧ s.pointsVec.length ≤ 21
      ∧ s.errors.length = s.pointsVec.length := by
  have hdiv := tdiv20_of_nonneg M (by omega)
  have hstep : 0 < Int.tdiv M 20 := by omega
  have hMlt : M < 20 * Int.tdiv M 20 + 20 := by omega
  have hfuelInt : (21 : Int) ≤ (fuel : Int) := by exact_mod_cast hfuel
  have hmul : 21 * Int.tdiv M 20 ≤ (fuel : Int) * Int.tdiv M 20 :=
    mul_le_mul_of_nonneg_right hfuelInt hstep.le
  obtain ⟨L, errs, e1, hrun, hlen, hmem, hpw, -, hne⟩ :=
    sweepLoop_run estimate M x hest hstep (step_safe M hstep hover) fuel 100 ⟨[], []⟩ e
      ⟨0, by simp⟩ (by omega) (by linarith)
  obtain ⟨hLne, hLlen⟩ := hne hM
  have hL20 : L.length ≤ 20 := by
    by_contra hcon
    have h21 : (21 : Int) ≤ (L.length : Int) := by exact_mod_cast (by omega : 21 ≤ L.length)
    have := mul_le_mul_of_nonneg_right h21 hstep.le
    linarith
  simp only [List.nil_append] at hrun
  obtain ⟨last, hlast⟩ : ∃ last, L.getLast? = some last := by
    cases h : L.getLast? with
    | none => exact absurd (List.getLast?_eq_none_iff.mp h) hLne
    | some last => exact ⟨last, rfl⟩
  by_cases heq : last = M
  · subst heq
    refine ⟨⟨L, errs⟩, e1, ⟨L, errs⟩, e1, hrun, ?_, hLne, hpw, hL20, hmem, ?_, hLne, hlast,
      count_eq_one_of_increasing L last hpw (List.mem_of_getLast?_eq_some hlast), hpw,
      Nat.le_succ_of_le hL20, hlen⟩
    · simp [sweep, hrun, hlast]
    · simp [hlast]
  · obtain ⟨v, e2, hv⟩ := hest M e1 (by omega)
    obtain ⟨ys, hys⟩ := List.getLast?_eq_some_iff.mp hlast
    have hltM : ∀ y ∈ L, y < M := by
      intro y hy
      have hlastM : last < M := by
        have := (hmem last (List.mem_of_getLast?_eq_some hlast)).2
        omega
      rw [hys] at hy hpw
      rcases List.mem_append.mp hy with h | h
      · have := (List.pairwise_append.mp hpw).2.2 y h last (by simp)
        omega
      · simp at h; omega
    have hpw' : (L ++ [M]).Pairwise (· < ·) := by
      refine List.pairwise_append.mpr ⟨hpw, by simp, ?_⟩
      intro y hy z hz
      simp at hz; subst hz; exact hltM y hy
    refine ⟨⟨L, errs⟩, e1, ⟨L ++ [M], errs ++ [Dbl.abs (Dbl.sub v x)]⟩, e2, hrun, ?_, hLne, hpw, hL20, hmem,
      ?_, by simp, by simp, count_eq_one_of_increasing _ M hpw' (by simp), hpw',
      by simp; omega, by simp [hlen]⟩
    · simp [sweep, hrun, hlast, heq, hv]
    · simp [hlast, heq]

theorem monteCarloIntegral_returns (RAND_MAX : Nat) (rand : Nat → Nat)
    (a b : Dbl) (func : Dbl → Dbl) (p : Int) (e : Effects Dbl) (hp : 0 < p) :
    ∃ v e', monteCarloIntegral RAND_MAX rand a b p func e = (Except.ok v, e') :=
  ⟨_, _, monteCarloIntegral_eq RAND_MAX rand a b func p hp e⟩

theorem monteCarloMultidimensional_returns (RAND_MAX : Nat)
    (rand : Nat → Nat) (limits : List (Dbl × Dbl)) (func : List Dbl → Dbl) (p : Int)
    (e : Effects (List Dbl)) :
    ∃ v e', monteCarloMultidimensional RAND_MAX rand (limits.length : Int) limits p func e
      = (Except.ok v, e') :=
  ⟨_, _, monteCarloMultidimensional_eq RAND_MAX rand limits func p e⟩

/-- With `maxPoints = INT_MAX` the loop condition `points <= maxPoints` can only
become false by overflow: the loop ends in the overflowing `points += step`. -/
theorem sweepLoop_overflow {α : Type}
    (estimate : Int → Effects α → Except Fault Dbl × Effects α) (x : Dbl)
    (hest : ∀ p e, 0 < p → ∃ v e', estimate p e = (Except.ok v, e'))
    (fuel : Nat) (p : Int) (s : Series) (e : Effects α) (hp : 0 < p) (hmax : p ≤ INT_MAX)
    (hfuel : INT_MAX - p < (fuel : Int) * 107374182) :
    ∃ e', sweepLoop estimate INT_MAX x fuel p s e = some (.error .intOverflow, e') := by
  have hstep : Int.tdiv INT_MAX 20 = 107374182 := by decide
  induction fuel generalizing p s e with
  | zero => simp at hfuel; omega
  | succ fuel ih =>
    obtain ⟨v, e1, hv⟩ := hest p e hp
    rw [sweepLoop]
    simp only [hmax, if_true, hv, hstep]
    by_cases hov : p + 107374182 ≤ INT_MAX
    · have hadd : addInt p 107374182 = .ok (p + 107374182) :=
        addInt_ok _ _ (by simp only [INT_MIN]; omega) hov
      simp only [hadd]
      exact ih (p + 107374182) _ e1 (by omega) hov (by push_cast at hfuel; linarith)
    · have hadd : addInt p 107374182 = .error .intOverflow :=
        addInt_overflow _ _ (not_le.mp hov)
      simp only [hadd]
      exact ⟨e1, rfl⟩

theorem no_overflow_of_le (M : Int) (hM : 100 ≤ M) (hle : M ≤ 2045222521) :
    100 + ((M - 100) / Int.tdiv M 20 + 1) * Int.tdiv M 20 ≤ INT_MAX := by
  have hdiv := tdiv20_of_nonneg M (by omega)
  have hstep : 0 < Int.tdiv M 20 := by omega
  have h := Int.ediv_mul_le (M - 100) hstep.ne'
  have hmax : INT_MAX = 2147483647 := rfl
  have hexp : ((M - 100) / Int.tdiv M 20 + 1) * Int.tdiv M 20
      = (M - 100) / Int.tdiv M 20 * Int.tdiv M 20 + Int.tdiv M 20 := by ring
  rw [hexp, hmax]
  omega

theorem sweepLoop_below_floor {α : Type}
    (estimate : Int → Effects α → Except Fault Dbl × Effects α) (M : Int) (x : Dbl)
    (hM : M < 100) (fuel : Nat) (hfuel : 0 < fuel) (e : Effects α) :
    sweepLoop estimate M x fuel 100 ⟨[], []⟩ e = some (.ok ⟨[], []⟩, e) := by
  obtain ⟨k, rfl⟩ : ∃ k, fuel = k + 1 := ⟨fuel - 1, by omega⟩
  rw [sweepLoop]
  simp [not_le.mpr hM]

theorem sweep_below_floor {α : Type}
    (estimate : Int → Effects α → Except Fault Dbl × Effects α) (M : Int) (x : Dbl)
    (hM : M < 100) (fuel : Nat) (hfuel : 0 < fuel) (e : Effects α) :
    sweep estimate M x fuel e = some (.error .emptyBack, e) := by
  simp [sweep, sweepLoop_below_floor estimate M x hM fuel hfuel e]

/-- The stepping loop for an arbitrary `maxPoints` whose increments do not
overflow: it returns, with at most 20 strictly increasing counts, and a zero step
never meets a running body. -/
theorem sweepLoop_bounds {α : Type}
    (estimate : Int → Effects α → Except Fault Dbl × Effects α) (M : Int) (x : Dbl)
    (hest : ∀ p e, 0 < p → ∃ v e', estimate p e = (Except.ok v, e'))
    (hover : 100 ≤ M → 100 + ((M - 100) / Int.tdiv M 20 + 1) * Int.tdiv M 20 ≤ INT_MAX)
    (fuel : Nat) (hfuel : 21 ≤ fuel) (e : Effects α) :
    ∃ loopS e1, sweepLoop estimate M x fuel 100 ⟨[], []⟩ e = some (.ok loopS, e1)
      ∧ loopS.pointsVec.Pairwise (· < ·) ∧ loopS.pointsVec.length ≤ 20
      ∧ (Int.tdiv M 20 = 0 → M < 20 ∧ loopS.pointsVec = [])
      ∧ (loopS.pointsVec ≠ [] → 5 ≤ Int.tdiv M 20)
      ∧ (∀ s e', sweep estimate M x fuel e = some (.ok s, e') →
          s.pointsVec.Pairwise (· < ·) ∧ s.pointsVec.length ≤ 21) := by
  rcases lt_or_le M 100 with hM | hM
  · refine ⟨⟨[], []⟩, e, sweepLoop_below_floor estimate M x hM fuel (by omega) e,
      List.Pairwise.nil, by simp, ?_, by simp, ?_⟩
    · intro hz
      refine ⟨?_, rfl⟩
      by_contra hcon
      have := tdiv20_of_nonneg M (by omega)
      omega
    · intro s e' hs
      rw [sweep_below_floor estimate M x hM fuel (by omega) e] at hs
      simp at hs
  · obtain ⟨loopS, e1, s, e', hloop, hsweep, -, hpw, hlen, -, -, -, -, -, hpw', hlen', -⟩ :=
      sweep_run estimate M x hest hM (hover hM) fuel hfuel e
    have hdiv := tdiv20_of_nonneg M (by omega)
    refine ⟨loopS, e1, hloop, hpw, hlen, ?_, ?_, ?_⟩
    · intro hz; omega
    · intro _; omega
    · intro s2 e2 hs2
      rw [hsweep] at hs2
      simp only [Option.some.injEq, Prod.mk.injEq, Except.ok.injEq] at hs2
      rw [← hs2.1]
      exact ⟨hpw', hlen'⟩

theorem sweep_of_loop_fault {α : Type}
    (estimate : Int → Effects α → Except Fault Dbl × Effects α) (M : Int) (x : Dbl) (fuel : Nat)
    (e e' : Effects α) (f : Fault)
    (h : sweepLoop estimate M x fuel 100 ⟨[], []⟩ e = some (.error f, e')) :
    sweep estimate M x fuel e = some (.error f, e') := by
  simp only [sweep, h]

theorem sweepLoop_overflow_from_floor {α : Type}
    (estimate : Int → Effects α → Except Fault Dbl × Effects α) (x : Dbl)
    (hest : ∀ p e, 0 < p → ∃ v e', estimate p e = (Except.ok v, e')) (e : Effects α) :
    ∃ e', sweepLoop estimate 2147483647 x 21 100 ⟨[], []⟩ e
      = some (.error .intOverflow, e') := by
  have h := sweepLoop_overflow estimate x hest 21 100 ⟨[], []⟩ e (by decide) (by decide)
    (by decide)
  simpa only [INT_MAX] using h


/-! ## The estimators: zero factors, logged points, sampled points -/

theorem foldl_add_zeros (n : Nat) :
    (List.replicate n Dbl.zero).foldl Dbl.add Dbl.zero = Dbl.zero := by
  induction n with
  | zero => rfl
  | succ n ih =>
    rw [List.replicate_succ', List.foldl_append, ih]
    rfl

theorem map_const_range {α : Type} (n : Nat) (c : Dbl) (f : Nat → α) :
    ((List.range n).map f).map (fun _ => c) = List.replicate n c := by
  simp [Function.comp_def, List.map_const']

theorem foldl_pair (f : Dbl → Dbl → Dbl) (z x y : Dbl) :
    [x, y].foldl f z = f (f z x) y := rfl

theorem foldl_triple (f : Dbl → Dbl → Dbl) (z x y w : Dbl) :
    [x, y, w].foldl f z = f (f (f z x) y) w := rfl

theorem monteCarloIntegral_const (RAND_MAX : Nat) (rand : Nat → Nat) (a b c : Dbl)
    (points : Int) (hp : 0 < points) (e : Effects Dbl) :
    (monteCarloIntegral RAND_MAX rand a b points (fun _ => c) e).1
      = .ok (Dbl.div (Dbl.mul (Dbl.sub b a)
          ((List.replicate points.toNat c).foldl Dbl.add Dbl.zero)) (Dbl.ofInt points)) := by
  rw [monteCarloIntegral_eq RAND_MAX rand a b _ points hp e, map_const_range]

theorem monteCarloMultidimensional_const (RAND_MAX : Nat) (rand : Nat → Nat)
    (limits : List (Dbl × Dbl)) (c : Dbl) (points : Int) (e : Effects (List Dbl)) :
    (monteCarloMultidimensional RAND_MAX rand (limits.length : Int) limits points
        (fun _ => c) e).1
      = .ok (Dbl.div (Dbl.mul (volumeLoop limits)
          ((List.replicate points.toNat c).foldl Dbl.add Dbl.zero)) (Dbl.ofInt points)) := by
  rw [monteCarloMultidimensional_eq RAND_MAX rand limits _ points e, map_const_range]

theorem mul_zero_or_nan (v x : Dbl) (hv : v.isZero = true ∨ v = Dbl.nan) :
    (Dbl.mul v x).isZero = true ∨ Dbl.mul v x = Dbl.nan := by
  rcases hv with hv | rfl
  · obtain ⟨s, e, rfl⟩ := (Dbl.isZero_iff v).mp hv
    cases x with
    | nan => simp [Dbl.mul]
    | inf t => simp [Dbl.mul]
    | fin t m e2 => simp [Dbl.mul_zero_finite, Dbl.isZero]
  · simp [Dbl.mul]

theorem mul_by_zero_or_nan (v x : Dbl) (hx : x.isZero = true) :
    (Dbl.mul v x).isZero = true ∨ Dbl.mul v x = Dbl.nan := by
  obtain ⟨s, e, rfl⟩ := (Dbl.isZero_iff x).mp hx
  cases v with
  | nan => simp [Dbl.mul]
  | inf t => simp [Dbl.mul]
  | fin t m e2 => simp [Dbl.mul_finite_zero, Dbl.isZero]

/-- The volume loop over a box with a dimension of finite equal bounds ends on a
zero or on NaN. -/
theorem volume_zero_or_nan (limits : List (Dbl × Dbl)) (v : Dbl)
    (h : (v.isZero = true ∨ v = Dbl.nan)
      ∨ ∃ limit ∈ limits, limit.1 = limit.2 ∧ limit.1.isFinite = true) :
    (limits.foldl (fun volume limit => Dbl.mul volume (Dbl.sub limit.2 limit.1)) v).isZero = true
      ∨ limits.foldl (fun volume limit => Dbl.mul volume (Dbl.sub limit.2 limit.1)) v
          = Dbl.nan := by
  induction limits generalizing v with
  | nil =>
    rcases h with h | ⟨limit, hmem, -⟩
    · exact h
    · simp at hmem
  | cons l ls ih =>
    rw [List.foldl_cons]
    apply ih
    rcases h with h | ⟨limit, hmem, heq, hfin⟩
    · exact Or.inl (mul_zero_or_nan v _ h)
    · rcases List.mem_cons.mp hmem with rfl | hmem'
      · left
        apply mul_by_zero_or_nan
        cases hl : limit.1 with
        | nan => rw [hl] at hfin; simp [Dbl.isFinite] at hfin
        | inf t => rw [hl] at hfin; simp [Dbl.isFinite] at hfin
        | fin s m e =>
          rw [← heq, hl, Dbl.sub_self_finite]
          rfl
      · exact Or.inr ⟨limit, hmem', heq, hfin⟩

theorem volumeLoop_unit_cube (N : Nat) :
    volumeLoop (List.replicate N (Dbl.zero, Dbl.one)) = Dbl.one := by
  unfold volumeLoop
  induction N with
  | zero => rfl
  | succ N ih =>
    rw [List.replicate_succ, List.foldl_cons]
    simp only [Dbl.sub_one_zero, Dbl.mul_one_one]
    exact ih

theorem huge_add_huge :
    Dbl.add (Dbl.add Dbl.zero (Dbl.fin false 5010420900022432 971))
      (Dbl.fin false 5010420900022432 971) = Dbl.inf false := by
  rw [Dbl.zero, Dbl.add_zero_left false false _ _ _ (by decide) (by decide)]
  decide

set_option maxRecDepth 100000 in
theorem tenth_three_times :
    Dbl.div (Dbl.mul Dbl.one (Dbl.add (Dbl.add (Dbl.fin false 7205759403792794 (-56))
      (Dbl.fin false 7205759403792794 (-56))) (Dbl.fin false 7205759403792794 (-56))))
      (Dbl.ofInt 3) = Dbl.fin false 7205759403792795 (-56) := by
  decide

set_option maxRecDepth 100000 in
theorem tenth_times_three_over_three :
    Dbl.div (Dbl.mul (Dbl.fin false 7205759403792794 (-56)) (Dbl.round false 3 0))
      (Dbl.ofInt 3) = Dbl.fin false 7205759403792795 (-56) := by
  decide

set_option maxRecDepth 100000 in
theorem one_mul_tenth :
    Dbl.mul Dbl.one (Dbl.fin false 7205759403792794 (-56))
      = Dbl.fin false 7205759403792794 (-56) := by
  decide

set_option maxRecDepth 100000 in
theorem ofInt_minus_thousand : Dbl.ofInt (-1000) = Dbl.fin true 8796093022208000 (-43) := by
  decide

/-! ## Properties checked against the specification -/

/-- C1: for every interval, integrand and `points <= 0`, `monteCarloIntegral`
throws `std::invalid_argument`, and it does so before any sampling: the stream
position and the log of integrand calls are returned unchanged. -/
theorem monteCarloIntegral_nonpositive_points (RAND_MAX : Nat) (rand : Nat → Nat) (a b : Dbl)
    (points : Int) (func : Dbl → Dbl) (e : Effects Dbl) (hpoints : points ≤ 0) :
    monteCarloIntegral RAND_MAX rand a b points func e = (.error .invalidArgument, e) := by
  simp [monteCarloIntegral, hpoints]

theorem monteCarloIntegral_nonpositive_points_witness :
    monteCarloIntegral 32767 (fun i => i) Dbl.zero Dbl.one (-1000) (fun x => Dbl.mul x x)
      ⟨0, []⟩ = (.error .invalidArgument, ⟨0, []⟩) :=
  monteCarloIntegral_nonpositive_points 32767 (fun i => i) Dbl.zero Dbl.one (-1000)
    (fun x => Dbl.mul x x) ⟨0, []⟩ (by decide)

/-- C2 (failing input): `monteCarloMultidimensional(3, cube, -1000, 1)` throws
nothing; both loops are skipped and the value `1.0 * 0.0 / -1000`, which is
`-0.0`, is returned as an estimate.  With `points = 0` nothing is thrown either:
the function returns `0.0 / 0`, a NaN. -/
theorem monteCarloMultidimensional_negative_points :
    monteCarloMultidimensional 32767 (fun i => i) 3
      [(Dbl.zero, Dbl.one), (Dbl.zero, Dbl.one), (Dbl.zero, Dbl.one)] (-1000)
      (fun _ => Dbl.one) ⟨0, []⟩ = (.ok (Dbl.fin true 0 (-1074)), ⟨0, []⟩)
    ∧ monteCarloMultidimensional 32767 (fun i => i) 3
      [(Dbl.zero, Dbl.one), (Dbl.zero, Dbl.one), (Dbl.zero, Dbl.one)] 0
      (fun _ => Dbl.one) ⟨0, []⟩ = (.ok Dbl.nan, ⟨0, []⟩) := by
  have hvol := volumeLoop_unit_cube 3
  have h1 := monteCarloMultidimensional_eq 32767 (fun i => i)
    (List.replicate 3 (Dbl.zero, Dbl.one)) (fun _ => Dbl.one) (-1000) ⟨0, []⟩
  have h2 := monteCarloMultidimensional_eq 32767 (fun i => i)
    (List.replicate 3 (Dbl.zero, Dbl.one)) (fun _ => Dbl.one) 0 ⟨0, []⟩
  rw [hvol] at h1 h2
  constructor
  · refine h1.trans ?_
    simp [Dbl.one, Dbl.zero, Dbl.mul_finite_zero, ofInt_minus_thousand, Dbl.div_zero_finite]
  · refine h2.trans ?_
    simp [Dbl.one, Dbl.zero, Dbl.mul_finite_zero, Dbl.ofInt, Dbl.round_zero, Dbl.div]

/-- C3 (as amended): for every finite bound `a`, every `points` from 1 to
`INT_MAX`, every integrand and every stream of draws,
`monteCarloIntegral(a, a, points, func)` returns a zero (`+0.0` or `-0.0`) when
the accumulated sum of the integrand values is finite, and NaN when that sum is
an infinity or NaN. -/
theorem monteCarloIntegral_equal_limits (RAND_MAX : Nat) (rand : Nat → Nat) (a : Dbl)
    (points : Int) (func : Dbl → Dbl) (e : Effects Dbl) (ha : a.isFinite = true)
    (hpoints : 1 ≤ points) (hmax : points ≤ INT_MAX) :
    ∃ v, (monteCarloIntegral RAND_MAX rand a a points func e).1 = .ok v
      ∧ ((integralLoop RAND_MAX rand a a func points.toNat Dbl.zero e).1.isFinite = true →
          v.isZero = true)
      ∧ ((integralLoop RAND_MAX rand a a func points.toNat Dbl.zero e).1.isFinite = false →
          v = Dbl.nan) := by
  have hnot : ¬ (points ≤ 0) := by omega
  cases a with
  | nan => simp [Dbl.isFinite] at ha
  | inf s => simp [Dbl.isFinite] at ha
  | fin s m ex =>
    refine ⟨Dbl.div (Dbl.mul (Dbl.sub (Dbl.fin s m ex) (Dbl.fin s m ex))
      (integralLoop RAND_MAX rand (Dbl.fin s m ex) (Dbl.fin s m ex) func points.toNat
        Dbl.zero e).1) (Dbl.ofInt points), by simp only [monteCarloIntegral, hnot, if_false], ?_⟩
    rw [Dbl.sub_self_finite]
    exact Dbl.zero_mul_div Dbl.zero _ points rfl hpoints hmax

theorem monteCarloIntegral_equal_limits_witness :
    ∃ v, (monteCarloIntegral 32767 (fun i => i) Dbl.one Dbl.one 10000 (fun x => Dbl.mul x x)
        ⟨0, []⟩).1 = .ok v
      ∧ ((integralLoop 32767 (fun i => i) Dbl.one Dbl.one (fun x => Dbl.mul x x)
          (10000 : Int).toNat Dbl.zero ⟨0, []⟩).1.isFinite = true → v.isZero = true)
      ∧ ((integralLoop 32767 (fun i => i) Dbl.one Dbl.one (fun x => Dbl.mul x x)
          (10000 : Int).toNat Dbl.zero ⟨0, []⟩).1.isFinite = false → v = Dbl.nan) :=
  monteCarloIntegral_equal_limits 32767 (fun i => i) Dbl.one 10000 (fun x => Dbl.mul x x)
    ⟨0, []⟩ rfl (by decide) (by decide)

/-- C3 (counterexample): `monteCarloIntegral(1.0, 1.0, 2, x -> 1e308)` sums the
two values to `+inf`, and `(1.0 - 1.0) * inf / 2` is NaN, not 0. -/
theorem monteCarloIntegral_equal_limits_nan :
    (monteCarloIntegral 32767 (fun i => i) Dbl.one Dbl.one 2
      (fun _ => Dbl.fin false 5010420900022432 971) ⟨0, []⟩).1 = .ok Dbl.nan := by
  rw [monteCarloIntegral_const 32767 (fun i => i) Dbl.one Dbl.one _ 2 (by decide) ⟨0, []⟩]
  show Except.ok (Dbl.div (Dbl.mul (Dbl.sub Dbl.one Dbl.one)
    ([Dbl.fin false 5010420900022432 971, Dbl.fin false 5010420900022432 971].foldl
      Dbl.add Dbl.zero)) (Dbl.ofInt 2)) = _
  rw [foldl_pair, huge_add_huge, Dbl.one, Dbl.sub_self_finite]
  simp [Dbl.zero, Dbl.mul, Dbl.div]

/-- C4 (as amended): for every box with a dimension whose bounds are finite and
equal, every `points` from 1 to `INT_MAX`, every integrand and every stream of
draws, `monteCarloMultidimensional` (called with `dimensions = limits.size()`)
returns a zero or NaN; it returns a zero (`+0.0` or `-0.0`) whenever the computed
volume and the accumulated sum are finite. -/
theorem monteCarloMultidimensional_degenerate (RAND_MAX : Nat) (rand : Nat → Nat)
    (limits : List (Dbl × Dbl)) (points : Int) (func : List Dbl → Dbl)
    (e : Effects (List Dbl)) (hpoints : 1 ≤ points) (hmax : points ≤ INT_MAX)
    (hdeg : ∃ limit ∈ limits, limit.1 = limit.2 ∧ limit.1.isFinite = true) :
    ∃ sum e' v,
      multiLoop RAND_MAX rand limits limits.length func points.toNat Dbl.zero
        (List.replicate limits.length Dbl.zero) e = (.ok sum, e')
      ∧ (monteCarloMultidimensional RAND_MAX rand (limits.length : Int) limits points func e).1
        = .ok v
      ∧ (v.isZero = true ∨ v = Dbl.nan)
      ∧ ((volumeLoop limits).isFinite = true → sum.isFinite = true → v.isZero = true) := by
  have hloop := multiLoop_eq RAND_MAX rand limits func points.toNat Dbl.zero
    (List.replicate limits.length Dbl.zero) e (by simp)
  have hres := monteCarloMultidimensional_eq RAND_MAX rand limits func points e
  have hvol : (volumeLoop limits).isZero = true ∨ volumeLoop limits = Dbl.nan :=
    volume_zero_or_nan limits Dbl.one (Or.inr hdeg)
  refine ⟨_, _, _, hloop, by rw [hres], ?_, ?_⟩
  · rcases hvol with hz | hn
    · have h := Dbl.zero_mul_div _ ((((List.range points.toNat).map
          (fun i => drawVector RAND_MAX rand limits (e.pos + i * limits.length))).map
            func).foldl Dbl.add Dbl.zero) points hz hpoints hmax
      cases hs : ((((List.range points.toNat).map
          (fun i => drawVector RAND_MAX rand limits (e.pos + i * limits.length))).map
            func).foldl Dbl.add Dbl.zero).isFinite with
      | true => exact Or.inl (h.1 hs)
      | false => exact Or.inr (h.2 hs)
    · rw [hn, Dbl.nan_mul_div]
      exact Or.inr rfl
  · intro hfin hsum
    rcases hvol with hz | hn
    · exact (Dbl.zero_mul_div _ _ points hz hpoints hmax).1 hsum
    · rw [hn] at hfin
      simp [Dbl.isFinite] at hfin

theorem monteCarloMultidimensional_degenerate_witness :
    ∃ sum e' v,
      multiLoop 32767 (fun i => i) [(Dbl.zero, Dbl.one), (Dbl.one, Dbl.one)]
        ([(Dbl.zero, Dbl.one), (Dbl.one, Dbl.one)] : List (Dbl × Dbl)).length
        (fun _ => Dbl.one) (7 : Int).toNat Dbl.zero
        (List.replicate ([(Dbl.zero, Dbl.one), (Dbl.one, Dbl.one)] : List (Dbl × Dbl)).length
          Dbl.zero) ⟨0, []⟩ = (.ok sum, e')
      ∧ (monteCarloMultidimensional 32767 (fun i => i)
          (([(Dbl.zero, Dbl.one), (Dbl.one, Dbl.one)] : List (Dbl × Dbl)).length : Int)
          [(Dbl.zero, Dbl.one), (Dbl.one, Dbl.one)] 7 (fun _ => Dbl.one) ⟨0, []⟩).1 = .ok v
      ∧ (v.isZero = true ∨ v = Dbl.nan)
      ∧ ((volumeLoop [(Dbl.zero, Dbl.one), (Dbl.one, Dbl.one)]).isFinite = true →
          sum.isFinite = true → v.isZero = true) :=
  monteCarloMultidimensional_degenerate 32767 (fun i => i)
    [(Dbl.zero, Dbl.one), (Dbl.one, Dbl.one)] 7 (fun _ => Dbl.one) ⟨0, []⟩ (by decide)
    (by decide) ⟨(Dbl.one, Dbl.one), by simp, rfl, rfl⟩

/-- C4 (counterexample): on the box `[(0, 1), (2, 2)]` with 2 samples of the
integrand `1e308` the sum is `+inf` and `0 * inf / 2` is NaN, not 0. -/
theorem monteCarloMultidimensional_degenerate_nan :
    (monteCarloMultidimensional 32767 (fun i => i) 2
      [(Dbl.zero, Dbl.one), (Dbl.fin false 4503599627370496 (-51),
        Dbl.fin false 4503599627370496 (-51))] 2
      (fun _ => Dbl.fin false 5010420900022432 971) ⟨0, []⟩).1 = .ok Dbl.nan := by
  have h := monteCarloMultidimensional_const 32767 (fun i => i)
    [(Dbl.zero, Dbl.one), (Dbl.fin false 4503599627370496 (-51),
      Dbl.fin false 4503599627370496 (-51))]
    (Dbl.fin false 5010420900022432 971) 2 ⟨0, []⟩
  have hvol : volumeLoop [(Dbl.zero, Dbl.one), (Dbl.fin false 4503599627370496 (-51),
      Dbl.fin false 4503599627370496 (-51))] = Dbl.fin false 0 (-1074) := by
    simp only [volumeLoop, List.foldl_cons, List.foldl_nil, Dbl.sub_one_zero, Dbl.mul_one_one,
      Dbl.sub_self_finite]
    rfl
  have hsum : (List.replicate (2 : Int).toNat (Dbl.fin false 5010420900022432 971)).foldl
      Dbl.add Dbl.zero = Dbl.inf false := by
    show [Dbl.fin false 5010420900022432 971, Dbl.fin false 5010420900022432 971].foldl
      Dbl.add Dbl.zero = _
    rw [foldl_pair, huge_add_huge]
  rw [hvol, hsum] at h
  refine h.trans ?_
  simp [Dbl.mul, Dbl.div]

/-- C6 (as amended): for `n` samples, `1 <= n <= INT_MAX`, `monteCarloIntegral`
consumes exactly `n` draws, calls the integrand once at each point
`x_i = a + (r_i / RAND_MAX) * (b - a)`, in order, and returns
`(b - a) * sum / n`, where the points, the left-to-right sum of the integrand
values and the final product and quotient are all computed in double arithmetic
(each operation rounded); for the zero function and a finite `b - a` the result
is exactly zero. -/
theorem monteCarloIntegral_mean (RAND_MAX : Nat) (rand : Nat → Nat) (a b : Dbl) (n : Nat)
    (func : Dbl → Dbl) (e : Effects Dbl) (hn : 1 ≤ n) (hmax : (n : Int) ≤ INT_MAX) :
    monteCarloIntegral RAND_MAX rand a b (n : Int) func e
      = (.ok (Dbl.div (Dbl.mul (Dbl.sub b a) ((((List.range n).map
            (fun i => Dbl.add a (Dbl.mul (Dbl.div (Dbl.ofInt (rand (e.pos + i) : Int))
              (Dbl.ofInt (RAND_MAX : Int))) (Dbl.sub b a)))).map func).foldl
                Dbl.add Dbl.zero)) (Dbl.ofInt (n : Int))),
          ⟨e.pos + n, e.evals ++ (List.range n).map
            (fun i => Dbl.add a (Dbl.mul (Dbl.div (Dbl.ofInt (rand (e.pos + i) : Int))
              (Dbl.ofInt (RAND_MAX : Int))) (Dbl.sub b a)))⟩)
    ∧ ((Dbl.sub b a).isFinite = true →
        ∃ v, (monteCarloIntegral RAND_MAX rand a b (n : Int) (fun _ => Dbl.zero) e).1 = .ok v
          ∧ v.isZero = true) := by
  have hpos : (0 : Int) < (n : Int) := by exact_mod_cast hn
  constructor
  · rw [monteCarloIntegral_eq RAND_MAX rand a b func n hpos e]
    simp only [Int.toNat_ofNat]
    rfl
  · intro hfin
    obtain ⟨m, ex, hof, hm⟩ := Dbl.ofInt_pos (n : Int) (by omega) hmax
    refine ⟨_, monteCarloIntegral_const RAND_MAX rand a b Dbl.zero n hpos e, ?_⟩
    rw [Int.toNat_ofNat, foldl_add_zeros, hof]
    cases hd : Dbl.sub b a with
    | nan => rw [hd] at hfin; simp [Dbl.isFinite] at hfin
    | inf t => rw [hd] at hfin; simp [Dbl.isFinite] at hfin
    | fin t m2 e2 =>
      rw [Dbl.zero, Dbl.mul_finite_zero, Dbl.div_zero_finite _ _ _ _ _ hm]
      rfl

theorem monteCarloIntegral_mean_witness :
    ∃ v, (monteCarloIntegral 32767 (fun i => i) Dbl.zero Dbl.one ((10000 : Nat) : Int)
        (fun _ => Dbl.zero) ⟨0, []⟩).1 = .ok v ∧ v.isZero = true :=
  (monteCarloIntegral_mean 32767 (fun i => i) Dbl.zero Dbl.one 10000 (fun _ => Dbl.zero)
    ⟨0, []⟩ (by decide) (by decide)).2 (by rw [Dbl.sub_one_zero]; rfl)

/-- C6 (counterexample): on `[0, 1]` with 3 samples of the constant integrand
`0.1` the code returns `0.10000000000000002` (`7205759403792795 * 2^-56`), not
`(b - a) * c`, which is `0.1` (`7205759403792794 * 2^-56`). -/
theorem monteCarloIntegral_constant_rounding :
    (monteCarloIntegral 32767 (fun i => i) Dbl.zero Dbl.one 3
        (fun _ => Dbl.fin false 7205759403792794 (-56)) ⟨0, []⟩).1
      = .ok (Dbl.fin false 7205759403792795 (-56))
    ∧ Dbl.mul (Dbl.sub Dbl.one Dbl.zero) (Dbl.fin false 7205759403792794 (-56))
      = Dbl.fin false 7205759403792794 (-56) := by
  constructor
  · rw [monteCarloIntegral_const 32767 (fun i => i) Dbl.zero Dbl.one _ 3 (by decide) ⟨0, []⟩]
    show Except.ok (Dbl.div (Dbl.mul (Dbl.sub Dbl.one Dbl.zero)
      ([Dbl.fin false 7205759403792794 (-56), Dbl.fin false 7205759403792794 (-56),
        Dbl.fin false 7205759403792794 (-56)].foldl Dbl.add Dbl.zero)) (Dbl.ofInt 3)) = _
    rw [foldl_triple, Dbl.sub_one_zero, Dbl.zero,
      Dbl.add_zero_left false false _ _ _ (by decide) (by decide), tenth_three_times]
  · rw [Dbl.sub_one_zero, one_mul_tenth]

/-- C7 (as amended): for a box of `N = limits.size()` intervals and `n` samples,
`1 <= n <= INT_MAX`, `monteCarloMultidimensional` returns `volume * sum / n`,
where `volume` is the product over the dimensions, in order, of
`upper_d - lower_d`, `sum` is the left-to-right sum of the integrand over the `n`
sample points, and every operation is a rounded double operation; sample `i` has
`d`-th coordinate `lower_d + (r / RAND_MAX) * (upper_d - lower_d)` for the draw
`r` at stream position `pos + i * N + d`, so that `n * N` draws are consumed; for
the constant integrand 1 on a unit cube the result is exactly 1. -/
theorem monteCarloMultidimensional_mean (RAND_MAX : Nat) (rand : Nat → Nat)
    (limits : List (Dbl × Dbl)) (n : Nat) (func : List Dbl → Dbl) (e : Effects (List Dbl))
    (hn : 1 ≤ n) (hmax : (n : Int) ≤ INT_MAX) :
    monteCarloMultidimensional RAND_MAX rand (limits.length : Int) limits (n : Int) func e
      = (.ok (Dbl.div (Dbl.mul
            (limits.foldl (fun volume limit => Dbl.mul volume (Dbl.sub limit.2 limit.1)) Dbl.one)
            ((((List.range n).map
              (fun i => drawVector RAND_MAX rand limits (e.pos + i * limits.length))).map
                func).foldl Dbl.add Dbl.zero)) (Dbl.ofInt (n : Int))),
          ⟨e.pos + n * limits.length, e.evals ++ (List.range n).map
            (fun i => drawVector RAND_MAX rand limits (e.pos + i * limits.length))⟩)
    ∧ (∀ pos d : Nat, (drawVector RAND_MAX rand limits pos)[d]? = limits[d]?.map (fun limit =>
        Dbl.add limit.1 (Dbl.mul (Dbl.div (Dbl.ofInt (rand (pos + d) : Int))
          (Dbl.ofInt (RAND_MAX : Int))) (Dbl.sub limit.2 limit.1))))
    ∧ (∀ N : Nat, (monteCarloMultidimensional RAND_MAX rand (N : Int)
        (List.replicate N (Dbl.zero, Dbl.one)) (n : Int) (fun _ => Dbl.one) e).1
          = .ok Dbl.one) := by
  refine ⟨?_, ?_, ?_⟩
  · rw [monteCarloMultidimensional_eq RAND_MAX rand limits func n e]
    simp only [Int.toNat_ofNat]
    rfl
  · intro pos d
    rw [drawVector_getElem?]
    rfl
  · intro N
    have hlt : n < 9007199254740992 := by
      have : (n : Int) ≤ 2147483647 := hmax
      omega
    have h := monteCarloMultidimensional_const RAND_MAX rand
      (List.replicate N (Dbl.zero, Dbl.one)) Dbl.one (n : Int) e
    rw [List.length_replicate, volumeLoop_unit_cube, Int.toNat_ofNat, Dbl.foldl_add_ones n hlt,
      Dbl.mul_one_round n hlt, Dbl.ofInt_natCast, Dbl.round_nat n (by omega) hlt,
      Dbl.div_self_finite _ _ _ (Nat.mul_ne_zero (by omega) (Nat.pow_pos (by decide)).ne')] at h
    exact h

theorem monteCarloMultidimensional_mean_witness :
    (monteCarloMultidimensional 32767 (fun i => i) ((3 : Nat) : Int)
      (List.replicate 3 (Dbl.zero, Dbl.one)) ((10000 : Nat) : Int) (fun _ => Dbl.one)
      ⟨0, []⟩).1 = .ok Dbl.one :=
  (monteCarloMultidimensional_mean 32767 (fun i => i) [] 10000 (fun _ => Dbl.one) ⟨0, []⟩
    (by decide) (by decide)).2.2 3

/-- C7 (counterexample): on the box `[(0, 0.1)]` with 3 samples of the constant
integrand 1 the volume is `0.1` (`7205759403792794 * 2^-56`) and the code returns
`0.1 * 3.0 / 3`, which is `0.10000000000000002` (`7205759403792795 * 2^-56`). -/
theorem monteCarloMultidimensional_constant_rounding :
    (monteCarloMultidimensional 32767 (fun i => i) 1
        [(Dbl.zero, Dbl.fin false 7205759403792794 (-56))] 3 (fun _ => Dbl.one) ⟨0, []⟩).1
      = .ok (Dbl.fin false 7205759403792795 (-56))
    ∧ volumeLoop [(Dbl.zero, Dbl.fin false 7205759403792794 (-56))]
      = Dbl.fin false 7205759403792794 (-56) := by
  have hvol : volumeLoop [(Dbl.zero, Dbl.fin false 7205759403792794 (-56))]
      = Dbl.fin false 7205759403792794 (-56) := by
    simp only [volumeLoop, List.foldl_cons, List.foldl_nil]
    rw [Dbl.sub_zero_right false _ _ (by decide) (by decide), one_mul_tenth]
  refine ⟨?_, hvol⟩
  have h := monteCarloMultidimensional_const 32767 (fun i => i)
    [(Dbl.zero, Dbl.fin false 7205759403792794 (-56))] Dbl.one 3 ⟨0, []⟩
  have hsum : (List.replicate (3 : Int).toNat Dbl.one).foldl Dbl.add Dbl.zero
      = Dbl.round false 3 0 := Dbl.foldl_add_ones 3 (by decide)
  rw [hvol, hsum, tenth_times_three_over_three] at h
  exact h

/-- C5 (as amended): for every `maxPoints >= 100` for which the first count above
`maxPoints`, `100 + ((maxPoints - 100) / step + 1) * step` with
`step = maxPoints / 20`, still fits an `int`, the series built by `plotErrors`
and by `plotMultidimensionalErrors` is non-empty, its last count is exactly
`maxPoints`, the final point is appended exactly when the stepping loop did not
end on `maxPoints`, and `maxPoints` occurs exactly once. -/
theorem sweep_ends_at_maxPoints (RAND_MAX : Nat) (rand : Nat → Nat) (maxPoints : Int)
    (fuel : Nat) (hfloor : 100 ≤ maxPoints)
    (hover : 100 + ((maxPoints - 100) / Int.tdiv maxPoints 20 + 1) * Int.tdiv maxPoints 20
      ≤ INT_MAX)
    (hfuel : 21 ≤ fuel) :
    (∀ (func : Dbl → Dbl) (a b exactResult : Dbl) (e : Effects Dbl), ∃ loopS e1 s e',
      sweepLoop (fun points => monteCarloIntegral RAND_MAX rand a b points func)
          maxPoints exactResult fuel 100 ⟨[], []⟩ e = some (.ok loopS, e1)
      ∧ plotErrors RAND_MAX rand func a b maxPoints exactResult fuel e = some (.ok s, e')
      ∧ s.pointsVec = (if loopS.pointsVec.getLast? = some maxPoints then loopS.pointsVec
          else loopS.pointsVec ++ [maxPoints])
      ∧ s.pointsVec ≠ [] ∧ s.pointsVec.getLast? = some maxPoints
      ∧ s.pointsVec.count maxPoints = 1 ∧ s.errors.length = s.pointsVec.length)
    ∧ (∀ (func : List Dbl → Dbl) (limits : List (Dbl × Dbl)) (exactResult : Dbl)
        (e : Effects (List Dbl)), ∃ loopS e1 s e',
      sweepLoop (fun points =>
          monteCarloMultidimensional RAND_MAX rand (limits.length : Int) limits points func)
          maxPoints exactResult fuel 100 ⟨[], []⟩ e = some (.ok loopS, e1)
      ∧ plotMultidimensionalErrors RAND_MAX rand func limits (limits.length : Int) maxPoints
          exactResult fuel e = some (.ok s, e')
      ∧ s.pointsVec = (if loopS.pointsVec.getLast? = some maxPoints then loopS.pointsVec
          else loopS.pointsVec ++ [maxPoints])
      ∧ s.pointsVec ≠ [] ∧ s.pointsVec.getLast? = some maxPoints
      ∧ s.pointsVec.count maxPoints = 1 ∧ s.errors.length = s.pointsVec.length) := by
  constructor
  · intro func a b exactResult e
    obtain ⟨loopS, e1, s, e', hloop, hsweep, -, -, -, -, hs, hne, hlast, hcount, -, -, hlen⟩ :=
      sweep_run (fun points => monteCarloIntegral RAND_MAX rand a b points func) maxPoints
        exactResult (fun p e hp => monteCarloIntegral_returns RAND_MAX rand a b func p e hp)
        hfloor hover fuel hfuel e
    exact ⟨loopS, e1, s, e', hloop, hsweep, hs, hne, hlast, hcount, hlen⟩
  · intro func limits exactResult e
    obtain ⟨loopS, e1, s, e', hloop, hsweep, -, -, -, -, hs, hne, hlast, hcount, -, -, hlen⟩ :=
      sweep_run (fun points =>
          monteCarloMultidimensional RAND_MAX rand (limits.length : Int) limits points func)
        maxPoints exactResult
        (fun p e _ => monteCarloMultidimensional_returns RAND_MAX rand limits func p e)
        hfloor hover fuel hfuel e
    exact ⟨loopS, e1, s, e', hloop, hsweep, hs, hne, hlast, hcount, hlen⟩

theorem sweep_ends_at_maxPoints_witness :
    (∃ loopS e1 s e',
      sweepLoop (fun points => monteCarloIntegral 32767 (fun i => i) Dbl.zero Dbl.one points (fun x => Dbl.mul x x))
          1010 Dbl.zero 21 100 ⟨[], []⟩ ⟨0, []⟩ = some (.ok loopS, e1)
      ∧ plotErrors 32767 (fun i => i) (fun x => Dbl.mul x x) Dbl.zero Dbl.one 1010 Dbl.zero 21 ⟨0, []⟩
          = some (.ok s, e')
      ∧ s.pointsVec = (if loopS.pointsVec.getLast? = some 1010 then loopS.pointsVec
          else loopS.pointsVec ++ [1010])
      ∧ s.pointsVec ≠ [] ∧ s.pointsVec.getLast? = some 1010
      ∧ s.pointsVec.count 1010 = 1 ∧ s.errors.length = s.pointsVec.length) :=
  (sweep_ends_at_maxPoints 32767 (fun i => i) 1010 21 (by decide) (by decide)
    (by decide)).1 (fun x => Dbl.mul x x) Dbl.zero Dbl.one Dbl.zero ⟨0, []⟩

/-- C5 (counterexample): with `maxPoints = INT_MAX = 2147483647` the step is
107374182; the count 100 + 19 * 107374182 = 2040109558 is still in range and the
increment that follows overflows `int`, so `plotErrors` produces no series. -/
theorem plotErrors_overflow_at_INT_MAX :
    ∃ e', plotErrors 32767 (fun i => i) (fun x => Dbl.mul x x) Dbl.zero Dbl.one 2147483647 Dbl.zero 21 ⟨0, []⟩
      = some (.error .intOverflow, e') := by
  obtain ⟨e', h⟩ := sweepLoop_overflow_from_floor
    (fun points => monteCarloIntegral 32767 (fun i => i) Dbl.zero Dbl.one points (fun x => Dbl.mul x x)) Dbl.zero
    (fun p e hp => monteCarloIntegral_returns 32767 (fun i => i) Dbl.zero Dbl.one
      (fun x => Dbl.mul x x) p e hp) ⟨0, []⟩
  exact ⟨e', sweep_of_loop_fault _ _ _ _ _ _ _ h⟩

/-- C8 (failing input): with `maxPoints = 50` the stepping loop of either sweep
records nothing, and the test that follows calls `back()` on the empty
`pointsVec`. -/
theorem sweep_below_floor_reads_empty_back :
    plotErrors 32767 (fun i => i) (fun x => Dbl.mul x x) Dbl.zero Dbl.one 50 Dbl.zero 21 ⟨0, []⟩
      = some (.error .emptyBack, ⟨0, []⟩)
    ∧ plotMultidimensionalErrors 32767 (fun i => i) (fun _ => Dbl.one)
        [(Dbl.zero, Dbl.one), (Dbl.zero, Dbl.one)] 2 50 Dbl.one 21
        ⟨0, []⟩ = some (.error .emptyBack, ⟨0, []⟩) :=
  ⟨sweep_below_floor _ 50 _ (by decide) 21 (by decide) _,
    sweep_below_floor _ 50 _ (by decide) 21 (by decide) _⟩

/-- C10 (as amended): for every `maxPoints` for which, when it is at least 100,
the first count above `maxPoints` still fits an `int`, the stepping loop of either
sweep returns (any fuel from 21 on suffices), the step `maxPoints / 20` is zero
only when `maxPoints < 20`, in which case the body never runs, the step is at
least 5 whenever the body runs, the recorded counts are strictly increasing, the
body runs at most 20 times and a series has at most 21 points. -/
theorem sweepLoop_terminates (RAND_MAX : Nat) (rand : Nat → Nat) (maxPoints : Int)
    (fuel : Nat)
    (hover : 100 ≤ maxPoints →
      100 + ((maxPoints - 100) / Int.tdiv maxPoints 20 + 1) * Int.tdiv maxPoints 20 ≤ INT_MAX)
    (hfuel : 21 ≤ fuel) :
    (∀ (func : Dbl → Dbl) (a b exactResult : Dbl) (e : Effects Dbl), ∃ loopS e1,
      sweepLoop (fun points => monteCarloIntegral RAND_MAX rand a b points func)
          maxPoints exactResult fuel 100 ⟨[], []⟩ e = some (.ok loopS, e1)
      ∧ loopS.pointsVec.Pairwise (· < ·) ∧ loopS.pointsVec.length ≤ 20
      ∧ (Int.tdiv maxPoints 20 = 0 → maxPoints < 20 ∧ loopS.pointsVec = [])
      ∧ (loopS.pointsVec ≠ [] → 5 ≤ Int.tdiv maxPoints 20)
      ∧ (∀ s e', plotErrors RAND_MAX rand func a b maxPoints exactResult fuel e
            = some (.ok s, e') →
          s.pointsVec.Pairwise (· < ·) ∧ s.pointsVec.length ≤ 21))
    ∧ (∀ (func : List Dbl → Dbl) (limits : List (Dbl × Dbl)) (exactResult : Dbl)
        (e : Effects (List Dbl)), ∃ loopS e1,
      sweepLoop (fun points =>
          monteCarloMultidimensional RAND_MAX rand (limits.length : Int) limits points func)
          maxPoints exactResult fuel 100 ⟨[], []⟩ e = some (.ok loopS, e1)
      ∧ loopS.pointsVec.Pairwise (· < ·) ∧ loopS.pointsVec.length ≤ 20
      ∧ (Int.tdiv maxPoints 20 = 0 → maxPoints < 20 ∧ loopS.pointsVec = [])
      ∧ (loopS.pointsVec ≠ [] → 5 ≤ Int.tdiv maxPoints 20)
      ∧ (∀ s e', plotMultidimensionalErrors RAND_MAX rand func limits (limits.length : Int)
            maxPoints exactResult fuel e = some (.ok s, e') →
          s.pointsVec.Pairwise (· < ·) ∧ s.pointsVec.length ≤ 21)) := by
  constructor
  · intro func a b exactResult e
    exact sweepLoop_bounds (fun points => monteCarloIntegral RAND_MAX rand a b points func)
      maxPoints exactResult
      (fun p e hp => monteCarloIntegral_returns RAND_MAX rand a b func p e hp)
      hover fuel hfuel e
  · intro func limits exactResult e
    exact sweepLoop_bounds (fun points =>
        monteCarloMultidimensional RAND_MAX rand (limits.length : Int) limits points func)
      maxPoints exactResult
      (fun p e _ => monteCarloMultidimensional_returns RAND_MAX rand limits func p e)
      hover fuel hfuel e

theorem sweepLoop_terminates_witness :
    ∃ loopS e1,
      sweepLoop (fun points => monteCarloIntegral 32767 (fun i => i) Dbl.zero Dbl.one points (fun x => Dbl.mul x x))
          1010 Dbl.zero 25 100 ⟨[], []⟩ ⟨0, []⟩ = some (.ok loopS, e1)
      ∧ loopS.pointsVec.Pairwise (· < ·) ∧ loopS.pointsVec.length ≤ 20
      ∧ (Int.tdiv 1010 20 = 0 → (1010 : Int) < 20 ∧ loopS.pointsVec = [])
      ∧ (loopS.pointsVec ≠ [] → 5 ≤ Int.tdiv 1010 20)
      ∧ (∀ s e', plotErrors 32767 (fun i => i) (fun x => Dbl.mul x x) Dbl.zero Dbl.one 1010 Dbl.zero 25 ⟨0, []⟩
            = some (.ok s, e') →
          s.pointsVec.Pairwise (· < ·) ∧ s.pointsVec.length ≤ 21) :=
  (sweepLoop_terminates 32767 (fun i => i) 1010 25 (fun _ => by decide)
    (by decide)).1 (fun x => Dbl.mul x x) Dbl.zero Dbl.one Dbl.zero ⟨0, []⟩

/-- C10 (counterexample): with `maxPoints = INT_MAX = 2147483647` the body of the
stepping loop runs 20 times, up to the count 2040109558, and the twenty-first
evaluation of `points += maxPoints / 20` overflows `int`: the loop has undefined
behaviour instead of ending with a series. -/
theorem sweepLoop_overflow_at_INT_MAX :
    ∃ e', sweepLoop (fun points =>
        monteCarloMultidimensional 32767 (fun i => i) 3
          [(Dbl.zero, Dbl.one), (Dbl.zero, Dbl.one), (Dbl.zero, Dbl.one)] points
          (fun _ => Dbl.one)) 2147483647 Dbl.one 21 100 ⟨[], []⟩ ⟨0, []⟩
      = some (.error .intOverflow, e') :=
  sweepLoop_overflow_from_floor _ Dbl.one
    (fun p e _ => monteCarloMultidimensional_returns 32767 (fun i => i)
      [(Dbl.zero, Dbl.one), (Dbl.zero, Dbl.one), (Dbl.zero, Dbl.one)] (fun _ => Dbl.one) p e)
    ⟨0, []⟩


end MonteCarlo
